import Mathlib

set_option autoImplicit false

/-!
Verification development for a runtime-agnostic task-spawning library.

The library exposes a spawn capability (`Executor::try_spawn`), task
handles (awaitable, optionally cancellable), an infallible adapter
(`InfallibleExecutor::spawn`), type-erasing boxed executors
(`BoxedExecutor`/`LocalBoxedExecutor`), and three combinators:
`all` (parallel join), `all_limited` (bounded parallel join, built on an
`async_lock::Semaphore`), and `or` (race with cancellation, built on an
`async_channel::bounded(1)` mailbox).

The combinators are embedded as small-step state machines: a scheduler
adversarially interleaves the combinator's own coroutine (`main` steps)
with the spawned tasks (`work i` steps).  A unit of work is modelled by
the number of polls it needs before completing and the value it then
yields (or the fact that it never completes / terminates abnormally).
The model executor is adversarial in spawn errors (a policy chooses, for
each `try_spawn` call, whether it fails) and in scheduling, but delivers
a spawned future's own output through its handle, which is the task
handle contract (`Executor::Task : Future<Output = F::Output>`).
-/

/-- A unit of work that becomes ready after `fuel` polls and then yields
`val`.  This models an ordinary future handed to `all`/`all_limited`. -/
structure RWork (α : Type) where
  fuel : Nat
  val : α
  deriving DecidableEq, Repr

/-- State of one spawned task under the model executor, as observed by
the combinator that holds its handle: still running (with remaining
polls), completed with its output, or dropped (handle discarded without
being awaited, which the executor treats as an implicit cancel). -/
inductive ATask (α : Type) where
  | running (fuel : Nat) (val : α)
  | done (val : α)
  | dropped
  deriving DecidableEq, Repr

/-- Position of the combinator's own coroutine: still in the spawn loop,
in the sequential await loop, returned `Ok`, or returned `Err` after a
failed `try_spawn`. -/
inductive APhase where
  | spawning
  | awaiting
  | finished
  | failed
  deriving DecidableEq, Repr

/-- State of the `all` machine, embedding `ext::all`:
collect `try_spawn` results over the input sequence (short-circuiting on
the first error, which drops the partially built task vector), then
await the handles strictly in input order, extending `outputs`. -/
structure AllState (α ε : Type) where
  pending : List (RWork α)
  tasks : List (ATask α)
  waitIdx : Nat
  outputs : List α
  phase : APhase
  err : Option ε
  calls : Nat
  deriving DecidableEq, Repr

/-- A scheduler choice: run the combinator's coroutine, or poll spawned
task `i` under the executor. -/
inductive AChoice where
  | main
  | work (i : Nat)
  deriving DecidableEq, Repr

/-- One step of the `all` coroutine.  `pol i` tells whether the `i`-th
`try_spawn` call fails (`some e`) or succeeds.  In the spawn loop, a
success appends a fresh running task; a failure drops every task already
collected (the partial `Vec` is dropped, implicitly cancelling them) and
surfaces the error.  In the await loop the next handle is awaited only
once its task has completed; its output is appended in input order. -/
def allMain {α ε : Type} (pol : Nat → Option ε) (s : AllState α ε) :
    Option (AllState α ε) :=
  match s.phase with
  | .spawning =>
    match s.pending with
    | [] => some { s with phase := .awaiting }
    | w :: rest =>
      match pol s.calls with
      | some e =>
        some { s with
               pending := rest
               calls := s.calls + 1
               tasks := s.tasks.map (fun _ => ATask.dropped)
               phase := .failed
               err := some e }
      | none =>
        some { s with
               pending := rest
               calls := s.calls + 1
               tasks := s.tasks ++ [ATask.running w.fuel w.val] }
  | .awaiting =>
    match s.tasks.get? s.waitIdx with
    | some (.done v) =>
      some { s with
             outputs := s.outputs ++ [v]
             waitIdx := s.waitIdx + 1 }
    | some _ => none
    | none => some { s with phase := .finished }
  | .finished => none
  | .failed => none

/-- One poll of a spawned task by the executor: a running task either
burns one unit of fuel or, at zero fuel, completes with its value.
Completed and dropped tasks are not polled again. -/
def stepATask {α : Type} : ATask α → Option (ATask α)
  | .running (f + 1) v => some (.running f v)
  | .running 0 v => some (.done v)
  | _ => none

/-- One scheduler step of the `all` machine. -/
def allStep {α ε : Type} (pol : Nat → Option ε) (c : AChoice)
    (s : AllState α ε) : Option (AllState α ε) :=
  match c with
  | .main => allMain pol s
  | .work i =>
    match s.tasks.get? i with
    | some t => (stepATask t).map (fun t2 => { s with tasks := s.tasks.set i t2 })
    | none => none

/-- Run the `all` machine under a schedule; a disabled choice is a
no-op, so every choice list denotes an execution and every prefix of a
schedule visits a reachable state. -/
def allRun {α ε : Type} (pol : Nat → Option ε) (cs : List AChoice)
    (s : AllState α ε) : AllState α ε :=
  cs.foldl (fun s c => (allStep pol c s).getD s) s

/-- Initial state of `all`: the input works pending, no task spawned,
the caller's output collector holding `outs`. -/
def allInit {α ε : Type} (works : List (RWork α)) (outs : List α) :
    AllState α ε :=
  { pending := works
    tasks := []
    waitIdx := 0
    outputs := outs
    phase := .spawning
    err := none
    calls := 0 }

/-- The output a task will deliver (or has delivered) to its handle,
`none` for a dropped handle. -/
def taskVal {α : Type} : ATask α → Option α
  | .running _ v => some v
  | .done v => some v
  | .dropped => none

/-! ### List helper lemmas -/

/-- Looking up the element right after a known prefix. -/
theorem get?_append_cons {β : Type} (ds : List β) (x : β) (t : List β) :
    (ds ++ x :: t).get? ds.length = some x := by
  induction ds with
  | nil => rfl
  | cons d ds ih => simpa using ih

/-- Updating the element right after a known prefix. -/
theorem set_append_cons {β : Type} (ds : List β) (x y : β) (t : List β) :
    (ds ++ x :: t).set ds.length y = ds ++ y :: t := by
  induction ds with
  | nil => rfl
  | cons d ds ih => simp [ih]

/-- Setting an index to a value with the same image leaves the mapped
list unchanged. -/
theorem map_set_congr {β γ : Type} (f : β → γ) (l : List β) (i : Nat)
    (t t2 : β) (h : l.get? i = some t) (hf : f t2 = f t) :
    (l.set i t2).map f = l.map f := by
  induction l generalizing i with
  | nil => simp at h
  | cons a l ih =>
    cases i with
    | zero =>
      simp only [List.get?] at h
      cases h
      simp [hf]
    | succ i =>
      simp only [List.get?] at h
      simp [ih i h]

/-- Lookup after a set at the same position. -/
theorem get?_set_self {β : Type} (l : List β) (i : Nat) (a : β)
    (h : i < l.length) : (l.set i a).get? i = some a := by
  induction l generalizing i with
  | nil => simp at h
  | cons b l ih =>
    cases i with
    | zero => rfl
    | succ i => exact ih i (Nat.lt_of_succ_lt_succ h)

/-- Setting the same position twice keeps the second value. -/
theorem set_set_same {β : Type} (l : List β) (i : Nat) (a b : β) :
    (l.set i a).set i b = l.set i b := by
  induction l generalizing i with
  | nil => rfl
  | cons c l ih =>
    cases i with
    | zero => rfl
    | succ i => simp [List.set, ih i]

/-- A successful lookup determines `take` one step further. -/
theorem take_succ_of_get? {β : Type} (l : List β) (i : Nat) (x : β)
    (h : l.get? i = some x) : l.take (i + 1) = l.take i ++ [x] := by
  induction l generalizing i with
  | nil => simp at h
  | cons a l ih =>
    cases i with
    | zero =>
      simp only [List.get?] at h
      cases h
      rfl
    | succ i =>
      simp only [List.get?] at h
      simp [List.take, ih i h]

/-- A nonempty `drop` pins down the element at that index and the rest. -/
theorem drop_cons_inv {β : Type} (l : List β) (k : Nat) (w : β)
    (rest : List β) (h : l.drop k = w :: rest) :
    l.get? k = some w ∧ l.drop (k + 1) = rest := by
  induction l generalizing k with
  | nil => simp at h
  | cons a l ih =>
    cases k with
    | zero =>
      simp only [List.drop] at h
      cases h
      exact ⟨rfl, rfl⟩
    | succ k => exact ih k h

/-- Lookup inside a `take` below the cut. -/
theorem get?_take_lt {β : Type} (l : List β) (n i : Nat) (h : i < n) :
    (l.take n).get? i = l.get? i := by
  induction l generalizing n i with
  | nil => simp
  | cons a l ih =>
    cases n with
    | zero => exact absurd h (Nat.not_lt_zero i)
    | succ n =>
      cases i with
      | zero => rfl
      | succ i => exact ih n i (Nat.lt_of_succ_lt_succ h)

/-- A successful lookup index is below the length. -/
theorem lt_of_get?_some {β : Type} (l : List β) (i : Nat) (x : β)
    (h : l.get? i = some x) : i < l.length := by
  induction l generalizing i with
  | nil => simp at h
  | cons a l ih =>
    cases i with
    | zero => simp
    | succ i => exact Nat.succ_lt_succ (ih i h)

/-- A failed lookup index is at least the length. -/
theorem le_of_get?_none {β : Type} (l : List β) (i : Nat)
    (h : l.get? i = none) : l.length ≤ i := by
  induction l generalizing i with
  | nil => simp
  | cons a l ih =>
    cases i with
    | zero => simp at h
    | succ i => exact Nat.succ_le_succ (ih i h)

/-- Dropping a list to the empty list means the index is past the end. -/
theorem length_le_of_drop_nil {β : Type} (l : List β) (n : Nat)
    (h : l.drop n = []) : l.length ≤ n := by
  induction l generalizing n with
  | nil => simp
  | cons a l ih =>
    cases n with
    | zero => simp at h
    | succ n => exact Nat.succ_le_succ (ih n h)

/-! ### Invariant of `all` under an executor whose spawns all succeed -/

/-- Invariant of the `all` machine when every `try_spawn` call succeeds:
no error ever surfaces, each spawned handle delivers the value of the
work it was spawned from (in input order), and the output collector
holds exactly the values of the first `waitIdx` works, appended to the
caller's original collector contents. -/
def AllInv {α ε : Type} (works : List (RWork α)) (outs : List α)
    (s : AllState α ε) : Prop :=
  s.err = none ∧
  s.phase ≠ APhase.failed ∧
  s.calls = s.tasks.length ∧
  s.tasks.map taskVal = ((works.map RWork.val).take s.tasks.length).map some ∧
  s.waitIdx ≤ s.tasks.length ∧
  s.outputs = outs ++ (works.map RWork.val).take s.waitIdx ∧
  (s.phase = APhase.spawning → s.pending = works.drop s.tasks.length ∧ s.waitIdx = 0) ∧
  (s.phase ≠ APhase.spawning → s.pending = [] ∧ s.tasks.length = works.length) ∧
  (s.phase = APhase.finished → s.waitIdx = works.length)

/-- The invariant holds initially. -/
theorem allInv_init {α ε : Type} (works : List (RWork α)) (outs : List α) :
    AllInv (ε := ε) works outs (allInit works outs) := by
  refine ⟨rfl, by simp [allInit], rfl, rfl, Nat.le_refl 0, by simp [allInit], ?_, ?_, ?_⟩
  · intro _; exact ⟨rfl, rfl⟩
  · intro hc; exact absurd rfl hc
  · intro hc; cases hc

/-- The invariant is preserved by every scheduler step. -/
theorem allInv_step {α ε : Type} {works : List (RWork α)} {outs : List α}
    {pol : Nat → Option ε} (hpol : ∀ i, pol i = none)
    {s : AllState α ε} (h : AllInv works outs s) (c : AChoice) :
    AllInv works outs ((allStep pol c s).getD s) := by
  have h0 := h
  obtain ⟨h1, h2, h3, h4, h5, h6, h7, h8, h9⟩ := h
  have hlen : s.tasks.length ≤ works.length := by
    have hc := congrArg List.length h4
    simp [List.length_take] at hc
    omega
  cases c with
  | work i =>
    cases hg : s.tasks.get? i with
    | none =>
      simp only [allStep, hg, Option.getD_none]
      exact h0
    | some t =>
      cases ht : stepATask t with
      | none =>
        simp only [allStep, hg, ht, Option.map_none', Option.getD_none]
        exact h0
      | some t2 =>
        have hval : taskVal t2 = taskVal t := by
          cases t with
          | running f v =>
            cases f with
            | zero => simp only [stepATask] at ht; cases ht; rfl
            | succ f => simp only [stepATask] at ht; cases ht; rfl
          | done v => simp [stepATask] at ht
          | dropped => simp [stepATask] at ht
        simp only [allStep, hg, ht, Option.map_some', Option.getD_some]
        refine ⟨h1, h2, ?_, ?_, ?_, h6, ?_, ?_, h9⟩
        · rw [List.length_set]; exact h3
        · rw [List.length_set, map_set_congr taskVal s.tasks i t t2 hg hval]
          exact h4
        · rw [List.length_set]; exact h5
        · intro hc
          obtain ⟨hpend, hwait⟩ := h7 hc
          rw [List.length_set]
          exact ⟨hpend, hwait⟩
        · intro hc
          obtain ⟨hpend, hleneq⟩ := h8 hc
          rw [List.length_set]
          exact ⟨hpend, hleneq⟩
  | main =>
    cases hp : s.phase with
    | finished =>
      simp only [allStep, allMain, hp, Option.getD_none]
      exact h0
    | failed => exact absurd hp h2
    | spawning =>
      obtain ⟨hpend, hwait⟩ := h7 hp
      cases hpd : s.pending with
      | nil =>
        have hge : works.length ≤ s.tasks.length :=
          length_le_of_drop_nil works s.tasks.length (by rw [← hpend, hpd])
        have heq : s.tasks.length = works.length := Nat.le_antisymm hlen hge
        simp only [allStep, allMain, hp, hpd, Option.getD_some]
        refine ⟨h1, by simp, h3, h4, h5, h6, ?_, ?_, ?_⟩
        · intro hc; cases hc
        · intro _; exact ⟨rfl, heq⟩
        · intro hc; cases hc
      | cons w rest =>
        obtain ⟨hgetw, hdrop1⟩ :=
          drop_cons_inv works s.tasks.length w rest (by rw [← hpend, hpd])
        have hpol0 := hpol s.calls
        have hmv : (works.map RWork.val).get? s.tasks.length = some w.val := by
          rw [List.get?_map, hgetw]; rfl
        have hlen1 : (s.tasks ++ [ATask.running w.fuel w.val]).length
            = s.tasks.length + 1 := by simp
        simp only [allStep, allMain, hp, hpd, hpol0, Option.getD_some]
        refine ⟨h1, by simp, ?_, ?_, ?_, h6, ?_, ?_, ?_⟩
        · rw [hlen1, h3]
        · rw [List.map_append, h4, hlen1,
              take_succ_of_get? _ _ _ hmv, List.map_append]
          rfl
        · rw [hlen1]
          exact Nat.le_trans h5 (Nat.le_add_right _ _)
        · intro _
          rw [hlen1]
          exact ⟨hdrop1.symm, hwait⟩
        · intro hc; exact absurd rfl hc
        · intro hc; cases hc
    | awaiting =>
      obtain ⟨hpend2, hleneq⟩ := h8 (by rw [hp]; intro hc; cases hc)
      cases hg : s.tasks.get? s.waitIdx with
      | none =>
        have hgel : s.tasks.length ≤ s.waitIdx := le_of_get?_none _ _ hg
        have hwid : s.waitIdx = works.length := by omega
        simp only [allStep, allMain, hp, hg, Option.getD_some]
        refine ⟨h1, by simp, h3, h4, h5, h6, ?_, ?_, ?_⟩
        · intro hc; cases hc
        · intro _; exact ⟨hpend2, hleneq⟩
        · intro _; exact hwid
      | some t =>
        cases t with
        | running f v =>
          simp only [allStep, allMain, hp, hg, Option.getD_none]
          exact h0
        | dropped =>
          simp only [allStep, allMain, hp, hg, Option.getD_none]
          exact h0
        | done v =>
          have hwlt : s.waitIdx < s.tasks.length := lt_of_get?_some _ _ _ hg
          have hmv : (works.map RWork.val).get? s.waitIdx = some v := by
            have e1 : (s.tasks.map taskVal).get? s.waitIdx = some (some v) := by
              rw [List.get?_map, hg]; rfl
            rw [h4, List.get?_map, get?_take_lt _ _ _ hwlt] at e1
            cases hx : (works.map RWork.val).get? s.waitIdx with
            | none => rw [hx] at e1; cases e1
            | some u =>
              rw [hx] at e1
              simp only [Option.map_some'] at e1
              cases e1
              rfl
          simp only [allStep, allMain, hp, hg, Option.getD_some]
          refine ⟨h1, by simp, h3, h4, hwlt, ?_, ?_, ?_, ?_⟩
          · rw [take_succ_of_get? _ _ _ hmv, h6, List.append_assoc]
          · intro hc; simp at hc
          · intro _; exact ⟨hpend2, hleneq⟩
          · intro hc; simp at hc

/-- The invariant is preserved by whole schedules. -/
theorem allInv_run {α ε : Type} {works : List (RWork α)} {outs : List α}
    (pol : Nat → Option ε) (hpol : ∀ i, pol i = none)
    (cs : List AChoice) {s : AllState α ε} (h : AllInv works outs s) :
    AllInv works outs (allRun pol cs s) := by
  induction cs generalizing s with
  | nil => exact h
  | cons c cs ih => exact ih (allInv_step hpol h c)

/-! ### A concrete schedule driving `all` to completion -/

/-- Unfolding `allRun` one step. -/
theorem allRun_cons {α ε : Type} (pol : Nat → Option ε) (c : AChoice)
    (cs : List AChoice) (s : AllState α ε) :
    allRun pol (c :: cs) s = allRun pol cs ((allStep pol c s).getD s) := rfl

/-- Splitting `allRun` over concatenated schedules. -/
theorem allRun_append {α ε : Type} (pol : Nat → Option ε)
    (a b : List AChoice) (s : AllState α ε) :
    allRun pol (a ++ b) s = allRun pol b (allRun pol a s) := by
  simp [allRun, List.foldl_append]

/-- The task a freshly spawned work turns into. -/
def mkRunning {α : Type} (w : RWork α) : ATask α := .running w.fuel w.val

/-- The task a work turns into once it has completed. -/
def mkDone {α : Type} (w : RWork α) : ATask α := .done w.val

/-- Running the spawn loop over a prefix of the pending works, with all
those `try_spawn` calls succeeding. -/
theorem spawnSteps {α ε : Type} (pol : Nat → Option ε) (ws : List (RWork α)) :
    ∀ (s : AllState α ε) (rest : List (RWork α)), s.phase = .spawning →
    s.pending = ws ++ rest →
    (∀ i, i < ws.length → pol (s.calls + i) = none) →
    allRun pol (List.replicate ws.length .main) s =
      { s with pending := rest
               tasks := s.tasks ++ ws.map mkRunning
               calls := s.calls + ws.length } := by
  induction ws with
  | nil =>
    intro s rest hp hpend _
    simp only [List.length_nil, List.replicate, allRun, List.foldl_nil]
    cases s
    simp_all
  | cons w ws ih =>
    intro s rest hp hpend hpol
    have hpol0 : pol (s.calls + 0) = none := hpol 0 (Nat.succ_pos _)
    rw [Nat.add_zero] at hpol0
    have hstep : allStep pol .main s = some
        { s with pending := ws ++ rest
                 calls := s.calls + 1
                 tasks := s.tasks ++ [ATask.running w.fuel w.val] } := by
      simp [allStep, allMain, hp, hpend, hpol0]
    rw [List.length_cons, List.replicate_succ, allRun_cons, hstep,
        Option.getD_some]
    have ih2 := ih { s with pending := ws ++ rest
                            calls := s.calls + 1
                            tasks := s.tasks ++ [ATask.running w.fuel w.val] }
        rest hp rfl (by
          intro i hi
          have h2 := hpol (i + 1) (Nat.succ_lt_succ hi)
          have h3 : s.calls + 1 + i = s.calls + (i + 1) := by omega
          rw [h3]
          exact h2)
    rw [ih2]
    cases s
    simp_all [List.append_assoc, mkRunning]
    omega

/-- Polling one spawned task through all its fuel until it completes. -/
theorem taskSteps_one {α ε : Type} (pol : Nat → Option ε) (f : Nat) (v : α) :
    ∀ (s : AllState α ε) (k : Nat), s.tasks.get? k = some (.running f v) →
    allRun pol (List.replicate (f + 1) (.work k)) s =
      { s with tasks := s.tasks.set k (.done v) } := by
  induction f with
  | zero =>
    intro s k hg
    have hstep : allStep pol (.work k) s =
        some { s with tasks := s.tasks.set k (.done v) } := by
      simp only [allStep, hg, stepATask, Option.map_some']
    rw [List.replicate_succ, allRun_cons, hstep, Option.getD_some]
    rfl
  | succ f ih =>
    intro s k hg
    have hstep : allStep pol (.work k) s =
        some { s with tasks := s.tasks.set k (.running f v) } := by
      simp only [allStep, hg, stepATask, Option.map_some']
    rw [List.replicate_succ, allRun_cons, hstep, Option.getD_some]
    have hg2 : ((s.tasks.set k (ATask.running f v))).get? k
        = some (.running f v) :=
      get?_set_self _ _ _ (lt_of_get?_some _ _ _ hg)
    rw [ih _ k hg2]
    rw [set_set_same]

/-- The schedule that polls each spawned task to completion, in order,
starting from handle index `k`. -/
def schedTasks {α : Type} (ws : List (RWork α)) (k : Nat) : List AChoice :=
  match ws with
  | [] => []
  | w :: rest => List.replicate (w.fuel + 1) (AChoice.work k) ++ schedTasks rest (k + 1)

/-- Polling every spawned task to completion. -/
theorem taskSteps {α ε : Type} (pol : Nat → Option ε) (ws : List (RWork α)) :
    ∀ (ds : List (ATask α)) (s : AllState α ε),
    s.tasks = ds ++ ws.map mkRunning →
    allRun pol (schedTasks ws ds.length) s =
      { s with tasks := ds ++ ws.map mkDone } := by
  induction ws with
  | nil =>
    intro ds s hts
    simp only [schedTasks, allRun, List.foldl_nil]
    cases s
    simp_all
  | cons w ws ih =>
    intro ds s hts
    rw [schedTasks, allRun_append]
    have hg : s.tasks.get? ds.length = some (.running w.fuel w.val) := by
      rw [hts]
      exact get?_append_cons ds _ _
    rw [taskSteps_one pol w.fuel w.val s ds.length hg]
    have hset : s.tasks.set ds.length (ATask.done w.val)
        = (ds ++ [mkDone w]) ++ ws.map mkRunning := by
      rw [hts]
      show (ds ++ mkRunning w :: ws.map mkRunning).set ds.length (ATask.done w.val) = _
      rw [set_append_cons]
      simp [mkDone]
    have hlen2 : ds.length + 1 = (ds ++ [mkDone w]).length := by simp
    rw [hlen2]
    rw [ih (ds ++ [mkDone w]) _ hset]
    cases s
    simp_all [List.append_assoc]

/-- Transition from the spawn loop into the await loop once the pending
list is exhausted. -/
theorem toAwaitStep {α ε : Type} (pol : Nat → Option ε) (s : AllState α ε)
    (hp : s.phase = .spawning) (hpend : s.pending = []) :
    allRun pol [.main] s = { s with phase := .awaiting } := by
  rw [allRun_cons]
  have hstep : allStep pol .main s = some { s with phase := .awaiting } := by
    simp [allStep, allMain, hp, hpend]
  rw [hstep, Option.getD_some]
  rfl

/-- Awaiting a run of already-completed tasks, in input order. -/
theorem awaitSteps {α ε : Type} (pol : Nat → Option ε) (vs2 : List α) :
    ∀ (vs1 : List α) (s : AllState α ε), s.phase = .awaiting →
    s.tasks = (vs1 ++ vs2).map ATask.done → s.waitIdx = vs1.length →
    allRun pol (List.replicate vs2.length .main) s =
      { s with outputs := s.outputs ++ vs2
               waitIdx := vs1.length + vs2.length } := by
  induction vs2 with
  | nil =>
    intro vs1 s hp hts hw
    simp only [List.length_nil, List.replicate, allRun, List.foldl_nil]
    cases s
    simp_all
  | cons v vs2 ih =>
    intro vs1 s hp hts hw
    have hg : s.tasks.get? s.waitIdx = some (.done v) := by
      rw [hts, hw]
      have hsplit : (vs1 ++ v :: vs2).map (ATask.done (α := α))
          = vs1.map ATask.done ++ ATask.done v :: vs2.map ATask.done := by
        simp
      rw [hsplit]
      have hl : vs1.length = (vs1.map (ATask.done (α := α))).length := by simp
      rw [hl]
      exact get?_append_cons _ _ _
    have hstep : allStep pol .main s = some
        { s with outputs := s.outputs ++ [v]
                 waitIdx := s.waitIdx + 1 } := by
      simp only [allStep, allMain, hp, hg]
    rw [List.length_cons, List.replicate_succ, allRun_cons, hstep,
        Option.getD_some]
    have ih2 := ih (vs1 ++ [v])
        { s with outputs := s.outputs ++ [v]
                 waitIdx := s.waitIdx + 1 }
        hp (by rw [hts]; simp) (by rw [hw]; simp)
    rw [ih2]
    cases s
    simp_all [List.append_assoc]
    omega

/-- The final transition: once every handle has been awaited the
combinator returns `Ok`. -/
theorem finishStep {α ε : Type} (pol : Nat → Option ε) (s : AllState α ε)
    (hp : s.phase = .awaiting) (hg : s.tasks.get? s.waitIdx = none) :
    allRun pol [.main] s = { s with phase := .finished } := by
  rw [allRun_cons]
  have hstep : allStep pol .main s = some { s with phase := .finished } := by
    simp only [allStep, allMain, hp, hg]
  rw [hstep, Option.getD_some]
  rfl

/-- A schedule that drives `all` to completion: spawn everything, then
let every task run to completion, then await every handle. -/
def schedAll {α : Type} (works : List (RWork α)) : List AChoice :=
  List.replicate works.length AChoice.main ++ [AChoice.main]
    ++ schedTasks works 0 ++ List.replicate works.length AChoice.main
    ++ [AChoice.main]

/-- A lookup past the end of a list fails. -/
theorem get?_none_of_le {β : Type} (l : List β) (n : Nat)
    (h : l.length ≤ n) : l.get? n = none := by
  induction l generalizing n with
  | nil => rfl
  | cons a l ih =>
    cases n with
    | zero => simp at h
    | succ n => exact ih n (Nat.le_of_succ_le_succ h)

/-- Running `all` under the canonical schedule reaches the `Ok` state
with the works' outputs appended in input order. -/
theorem allSched_result {α ε : Type} (pol : Nat → Option ε)
    (hpol : ∀ i, pol i = none) (works : List (RWork α)) (outs : List α) :
    allRun pol (schedAll works) (allInit works outs) =
      { pending := []
        tasks := works.map mkDone
        waitIdx := works.length
        outputs := outs ++ works.map RWork.val
        phase := .finished
        err := none
        calls := works.length } := by
  have e1 : allRun pol (List.replicate works.length AChoice.main)
      (allInit works outs)
      = { pending := []
          tasks := works.map mkRunning
          waitIdx := 0
          outputs := outs
          phase := .spawning
          err := none
          calls := works.length } := by
    have h := spawnSteps pol works (allInit (α := α) (ε := ε) works outs) []
      rfl (by simp [allInit]) (by intro i _; exact hpol _)
    simpa [allInit] using h
  have e2 : allRun pol [AChoice.main]
      { pending := []
        tasks := works.map mkRunning
        waitIdx := 0
        outputs := outs
        phase := .spawning
        err := none
        calls := works.length }
      = { pending := ([] : List (RWork α))
          tasks := works.map mkRunning
          waitIdx := 0
          outputs := outs
          phase := .awaiting
          err := none
          calls := works.length } :=
    toAwaitStep pol _ rfl rfl
  have e3 : allRun pol (schedTasks works 0)
      { pending := ([] : List (RWork α))
        tasks := works.map mkRunning
        waitIdx := 0
        outputs := outs
        phase := .awaiting
        err := none
        calls := works.length }
      = { pending := ([] : List (RWork α))
          tasks := works.map mkDone
          waitIdx := 0
          outputs := outs
          phase := .awaiting
          err := none
          calls := works.length } := by
    have h := taskSteps pol works ([] : List (ATask α))
      { pending := ([] : List (RWork α))
        tasks := works.map mkRunning
        waitIdx := 0
        outputs := outs
        phase := .awaiting
        err := (none : Option ε)
        calls := works.length } rfl
    simpa using h
  have e4 : allRun pol (List.replicate works.length AChoice.main)
      { pending := ([] : List (RWork α))
        tasks := works.map mkDone
        waitIdx := 0
        outputs := outs
        phase := .awaiting
        err := none
        calls := works.length }
      = { pending := ([] : List (RWork α))
          tasks := works.map mkDone
          waitIdx := works.length
          outputs := outs ++ works.map RWork.val
          phase := .awaiting
          err := none
          calls := works.length } := by
    have h := awaitSteps pol (works.map RWork.val) []
      { pending := ([] : List (RWork α))
        tasks := works.map mkDone
        waitIdx := 0
        outputs := outs
        phase := .awaiting
        err := (none : Option ε)
        calls := works.length }
      rfl (by simp [mkDone, Function.comp]) rfl
    simpa using h
  have e5 : allRun pol [AChoice.main]
      { pending := ([] : List (RWork α))
        tasks := works.map mkDone
        waitIdx := works.length
        outputs := outs ++ works.map RWork.val
        phase := .awaiting
        err := none
        calls := works.length }
      = { pending := ([] : List (RWork α))
          tasks := works.map mkDone
          waitIdx := works.length
          outputs := outs ++ works.map RWork.val
          phase := .finished
          err := none
          calls := works.length } :=
    finishStep pol _ rfl (get?_none_of_le _ _ (by simp))
  unfold schedAll
  rw [allRun_append, allRun_append, allRun_append, allRun_append,
      e1, e2, e3, e4, e5]

/-! ### Claim C1: `all` returns the outputs in input order -/

/-- C1: for every finite sequence of works whose outputs are
`[o1..oN]`, when every `try_spawn` call succeeds, `all` returns `Ok` and
appends exactly `[o1..oN]` to the output collector in input order,
regardless of the order in which the spawned tasks complete.
Formally, under every scheduler interleaving the `all` machine never
surfaces an error, any interleaving that returns has returned `Ok` with
exactly the works' outputs appended to the collector in input order, and
some interleaving does return. -/
theorem all_returns_outputs_in_order {α ε : Type} (works : List (RWork α))
    (outs : List α) (cs : List AChoice) :
    ((allRun (ε := ε) (fun _ => none) cs (allInit works outs)).err = none ∧
      (allRun (ε := ε) (fun _ => none) cs (allInit works outs)).phase ≠ APhase.failed) ∧
    ((allRun (ε := ε) (fun _ => none) cs (allInit works outs)).phase = APhase.finished →
      (allRun (ε := ε) (fun _ => none) cs (allInit works outs)).outputs
        = outs ++ works.map RWork.val) ∧
    ∃ cs2,
      (allRun (ε := ε) (fun _ => none) cs2 (allInit works outs)).phase = APhase.finished ∧
      (allRun (ε := ε) (fun _ => none) cs2 (allInit works outs)).outputs
        = outs ++ works.map RWork.val := by
  obtain ⟨h1, h2, h3, h4, h5, h6, h7, h8, h9⟩ :=
    allInv_run (fun _ => none) (fun _ => rfl) cs (allInv_init works outs)
  refine ⟨⟨h1, h2⟩, ?_, ?_⟩
  · intro hf
    rw [h6, h9 hf]
    have htl : (works.map RWork.val).take works.length = works.map RWork.val := by
      apply List.take_of_length_le
      simp
    rw [htl]
  · refine ⟨schedAll works, ?_, ?_⟩
    · rw [allSched_result (fun _ => none) (fun _ => rfl) works outs]
    · rw [allSched_result (fun _ => none) (fun _ => rfl) works outs]

/-- Witness for C1 at a concrete input: two works, the first needing one
extra poll, outputs collected in input order. -/
theorem all_returns_outputs_in_order_witness :
    (allRun (ε := Unit) (fun _ => none) (schedAll [⟨1, 10⟩, ⟨0, 20⟩])
      (allInit [⟨1, 10⟩, ⟨0, 20⟩] [])).phase = APhase.finished ∧
    (allRun (ε := Unit) (fun _ => none) (schedAll [⟨1, 10⟩, ⟨0, 20⟩])
      (allInit [⟨1, 10⟩, ⟨0, 20⟩] [])).outputs = [10, 20] :=
  ⟨by decide,
    (all_returns_outputs_in_order [⟨1, 10⟩, ⟨0, 20⟩] [] (schedAll [⟨1, 10⟩, ⟨0, 20⟩])).2.1
      (by decide)⟩

/-! ### Claim C4: `all` fails fast on the first spawn error -/

/-- A successful lookup is a member of the list. -/
theorem mem_of_get?_eq {β : Type} (l : List β) (i : Nat) (x : β)
    (h : l.get? i = some x) : x ∈ l := by
  induction l generalizing i with
  | nil => simp at h
  | cons a l ih =>
    cases i with
    | zero =>
      simp only [List.get?] at h
      cases h
      exact List.mem_cons_self _ _
    | succ i => exact List.mem_cons_of_mem a (ih i h)

/-- Membership in a list after a `set` comes from the old list or is the
new element. -/
theorem mem_set_cases {β : Type} (l : List β) (i : Nat) (y x : β)
    (h : x ∈ l.set i y) : x ∈ l ∨ x = y := by
  induction l generalizing i with
  | nil => simp at h
  | cons a l ih =>
    cases i with
    | zero =>
      rcases List.mem_cons.1 h with rfl | hmem
      · exact Or.inr rfl
      · exact Or.inl (List.mem_cons_of_mem a hmem)
    | succ i =>
      rcases List.mem_cons.1 h with rfl | hmem
      · exact Or.inl (List.mem_cons_self _ _)
      · rcases ih i hmem with hl | hr
        · exact Or.inl (List.mem_cons_of_mem a hl)
        · exact Or.inr hr

/-- An index below the length has a successful lookup. -/
theorem get?_some_of_lt {β : Type} (l : List β) (n : Nat)
    (h : n < l.length) : ∃ x, l.get? n = some x := by
  induction l generalizing n with
  | nil => simp at h
  | cons a l ih =>
    cases n with
    | zero => exact ⟨a, rfl⟩
    | succ n => exact ih n (Nat.lt_of_succ_lt_succ h)

/-- A successful lookup determines the shape of `drop`. -/
theorem drop_eq_cons_of_get? {β : Type} (l : List β) (n : Nat) (x : β)
    (h : l.get? n = some x) : l.drop n = x :: l.drop (n + 1) := by
  induction l generalizing n with
  | nil => simp at h
  | cons a l ih =>
    cases n with
    | zero =>
      simp only [List.get?] at h
      cases h
      rfl
    | succ n => exact ih n h

/-- Invariant of the `all` machine when the `j`-th `try_spawn` call is
the first to fail, with error `e`: until the failing call the machine is
still in its spawn loop with no output appended and no handle awaited,
and after it the machine has surfaced exactly `e`, has called
`try_spawn` exactly `j + 1` times, and every handle created for an
earlier item has been dropped un-awaited. -/
def AllFailInv {α ε : Type} (works : List (RWork α)) (outs : List α)
    (j : Nat) (e : ε) (s : AllState α ε) : Prop :=
  (s.phase = APhase.spawning →
    s.err = none ∧ s.waitIdx = 0 ∧ s.outputs = outs ∧
    s.calls = s.tasks.length ∧ s.tasks.length ≤ j ∧
    s.pending = works.drop s.tasks.length ∧
    ∀ t ∈ s.tasks, t ≠ ATask.dropped) ∧
  (s.phase = APhase.failed →
    s.err = some e ∧ s.outputs = outs ∧ s.waitIdx = 0 ∧
    s.calls = j + 1 ∧ (∀ t ∈ s.tasks, t = ATask.dropped) ∧
    s.tasks.length = j) ∧
  (s.phase = APhase.spawning ∨ s.phase = APhase.failed)

/-- The fail-fast invariant holds initially. -/
theorem allFailInv_init {α ε : Type} (works : List (RWork α)) (outs : List α)
    (j : Nat) (e : ε) :
    AllFailInv works outs j e (allInit (ε := ε) works outs) := by
  refine ⟨?_, ?_, Or.inl rfl⟩
  · intro _
    exact ⟨rfl, rfl, rfl, rfl, Nat.zero_le _, rfl, by intro t ht; simp [allInit] at ht⟩
  · intro hc; cases hc

/-- The fail-fast invariant is preserved by every scheduler step. -/
theorem allFailInv_step {α ε : Type} {works : List (RWork α)} {outs : List α}
    {pol : Nat → Option ε} {j : Nat} {e : ε}
    (hj : j < works.length) (hfirst : ∀ i, i < j → pol i = none)
    (hje : pol j = some e)
    {s : AllState α ε} (h : AllFailInv works outs j e s) (c : AChoice) :
    AllFailInv works outs j e ((allStep pol c s).getD s) := by
  have h0 := h
  obtain ⟨hsp, hfl, hor⟩ := h
  cases c with
  | work i =>
    cases hg : s.tasks.get? i with
    | none =>
      simp only [allStep, hg, Option.getD_none]
      exact h0
    | some t =>
      cases hor with
      | inr hfail =>
        have ht := (hfl hfail).2.2.2.2.1 t (mem_of_get?_eq _ _ _ hg)
        cases ht
        simp only [allStep, hg, stepATask, Option.map_none', Option.getD_none]
        exact h0
      | inl hspawn =>
        cases ht2 : stepATask t with
        | none =>
          simp only [allStep, hg, ht2, Option.map_none', Option.getD_none]
          exact h0
        | some t2 =>
          have ht2ne : t2 ≠ ATask.dropped := by
            cases t with
            | running f v =>
              cases f with
              | zero => simp only [stepATask] at ht2; cases ht2; intro hc; cases hc
              | succ f => simp only [stepATask] at ht2; cases ht2; intro hc; cases hc
            | done v => simp [stepATask] at ht2
            | dropped => simp [stepATask] at ht2
          simp only [allStep, hg, ht2, Option.map_some', Option.getD_some]
          obtain ⟨e1, e2, e3, e4, e5, e6, e7⟩ := hsp hspawn
          refine ⟨?_, ?_, Or.inl hspawn⟩
          · intro _
            refine ⟨e1, e2, e3, ?_, ?_, ?_, ?_⟩
            · rw [List.length_set]; exact e4
            · rw [List.length_set]; exact e5
            · rw [List.length_set]; exact e6
            · intro t3 ht3
              rcases mem_set_cases _ _ _ _ ht3 with hmem | heq
              · exact e7 t3 hmem
              · rw [heq]; exact ht2ne
          · intro hc
            rw [hc] at hspawn
            cases hspawn
  | main =>
    cases hor with
    | inr hfail =>
      simp only [allStep, allMain, hfail, Option.getD_none]
      exact h0
    | inl hspawn =>
      obtain ⟨e1, e2, e3, e4, e5, e6, e7⟩ := hsp hspawn
      have hlt : s.tasks.length < works.length := Nat.lt_of_le_of_lt e5 hj
      obtain ⟨w, hw⟩ := get?_some_of_lt works s.tasks.length hlt
      have hpd : s.pending = w :: works.drop (s.tasks.length + 1) := by
        rw [e6]
        exact drop_eq_cons_of_get? works s.tasks.length w hw
      rcases Nat.lt_or_ge s.tasks.length j with hltj | hgej
      · have hpol0 : pol s.calls = none := by rw [e4]; exact hfirst _ hltj
        simp only [allStep, allMain, hspawn, hpd, hpol0, Option.getD_some]
        refine ⟨?_, ?_, Or.inl rfl⟩
        · intro _
          refine ⟨e1, e2, e3, ?_, ?_, ?_, ?_⟩
          · rw [List.length_append, e4]; rfl
          · rw [List.length_append]
            exact Nat.succ_le_of_lt (by simpa using hltj)
          · rw [List.length_append]
            simp
          · intro t3 ht3
            rcases List.mem_append.1 ht3 with hmem | hmem
            · exact e7 t3 hmem
            · rcases List.mem_singleton.1 hmem with rfl
              intro hc; cases hc
        · intro hc; cases hc
      · have heqj : s.tasks.length = j := Nat.le_antisymm e5 hgej
        have hpolj : pol s.calls = some e := by rw [e4, heqj]; exact hje
        simp only [allStep, allMain, hspawn, hpd, hpolj, Option.getD_some]
        refine ⟨?_, ?_, Or.inr rfl⟩
        · intro hc; cases hc
        · intro _
          refine ⟨rfl, e3, e2, ?_, ?_, ?_⟩
          · rw [e4, heqj]
          · intro t3 ht3
            rcases List.mem_map.1 ht3 with ⟨t4, _, rfl⟩
            rfl
          · rw [List.length_map]
            exact heqj

/-- The fail-fast invariant is preserved by whole schedules. -/
theorem allFailInv_run {α ε : Type} {works : List (RWork α)} {outs : List α}
    {pol : Nat → Option ε} {j : Nat} {e : ε}
    (hj : j < works.length) (hfirst : ∀ i, i < j → pol i = none)
    (hje : pol j = some e) (cs : List AChoice)
    {s : AllState α ε} (h : AllFailInv works outs j e s) :
    AllFailInv works outs j e (allRun pol cs s) := by
  induction cs generalizing s with
  | nil => exact h
  | cons c cs ih => exact ih (allFailInv_step hj hfirst hje h c)

/-- One failing spawn step: in the spawn loop, when the policy rejects
the current `try_spawn` call, the machine surfaces the error, counts the
call, and drops every previously collected handle. -/
theorem failStep {α ε : Type} (pol : Nat → Option ε) (s : AllState α ε)
    (w : RWork α) (rest : List (RWork α)) (e : ε)
    (hp : s.phase = .spawning) (hpend : s.pending = w :: rest)
    (hpol : pol s.calls = some e) :
    allRun pol [.main] s =
      { s with pending := rest
               calls := s.calls + 1
               tasks := s.tasks.map (fun _ => ATask.dropped)
               phase := .failed
               err := some e } := by
  rw [allRun_cons]
  have hstep : allStep pol .main s = some
      { s with pending := rest
               calls := s.calls + 1
               tasks := s.tasks.map (fun _ => ATask.dropped)
               phase := .failed
               err := some e } := by
    simp only [allStep, allMain, hp, hpend, hpol]
  rw [hstep, Option.getD_some]
  rfl

/-- A schedule under which `all` actually reaches the `Err` state when
the `j`-th spawn is the first to fail. -/
theorem allFail_sched {α ε : Type} (works : List (RWork α)) (outs : List α)
    (pol : Nat → Option ε) (j : Nat) (e : ε)
    (hj : j < works.length) (hfirst : ∀ i, i < j → pol i = none)
    (hje : pol j = some e) :
    (allRun pol (List.replicate j AChoice.main ++ [AChoice.main])
      (allInit works outs)).phase = APhase.failed := by
  have htj : (works.take j).length = j := by
    rw [List.length_take]
    exact Nat.min_eq_left (Nat.le_of_lt hj)
  have e1 := spawnSteps pol (works.take j) (allInit (α := α) (ε := ε) works outs)
      (works.drop j) rfl (by simp [allInit]) (by
        intro i hi
        rw [htj] at hi
        have hz : (allInit (α := α) (ε := ε) works outs).calls + i = i := by
          simp [allInit]
        rw [hz]
        exact hfirst i hi)
  rw [htj] at e1
  rw [allRun_append, e1]
  obtain ⟨w, hw⟩ := get?_some_of_lt works j hj
  have hpd : works.drop j = w :: works.drop (j + 1) :=
    drop_eq_cons_of_get? works j w hw
  have hcalls : (allInit (α := α) (ε := ε) works outs).calls + j = j := by
    simp [allInit]
  rw [failStep pol _ w (works.drop (j + 1)) e rfl hpd (by rw [hcalls]; exact hje)]

/-- C4: if a `try_spawn` call fails during `all` (the `j`-th call being
the first failure, with error `e`), then on every scheduler interleaving
`all` never returns `Ok`, appends nothing to the output collector,
awaits no handle, and calls `try_spawn` at most `j + 1` times; whenever
it has returned, it returned `Err e` (the first spawn error), had called
`try_spawn` exactly `j + 1` times (so no later work was spawned), and
every handle created for an earlier item was dropped un-awaited; and
some interleaving does reach the `Err` state. -/
theorem all_spawn_error_fail_fast {α ε : Type} (works : List (RWork α))
    (outs : List α) (pol : Nat → Option ε) (j : Nat) (e : ε)
    (hj : j < works.length) (hfirst : ∀ i, i < j → pol i = none)
    (hje : pol j = some e) (cs : List AChoice) :
    ((allRun pol cs (allInit works outs)).phase = APhase.failed →
      (allRun pol cs (allInit works outs)).err = some e ∧
      (allRun pol cs (allInit works outs)).calls = j + 1 ∧
      ∀ t ∈ (allRun pol cs (allInit works outs)).tasks, t = ATask.dropped) ∧
    (allRun pol cs (allInit works outs)).outputs = outs ∧
    (allRun pol cs (allInit works outs)).waitIdx = 0 ∧
    (allRun pol cs (allInit works outs)).phase ≠ APhase.finished ∧
    (allRun pol cs (allInit works outs)).calls ≤ j + 1 ∧
    (allRun pol (List.replicate j AChoice.main ++ [AChoice.main])
      (allInit works outs)).phase = APhase.failed := by
  obtain ⟨hsp, hfl, hor⟩ :=
    allFailInv_run hj hfirst hje cs (allFailInv_init works outs j e)
  refine ⟨?_, ?_, ?_, ?_, ?_, allFail_sched works outs pol j e hj hfirst hje⟩
  · intro hf
    obtain ⟨f1, f2, f3, f4, f5, f6⟩ := hfl hf
    exact ⟨f1, f4, f5⟩
  · cases hor with
    | inl hspawn => exact (hsp hspawn).2.2.1
    | inr hfail => exact (hfl hfail).2.1
  · cases hor with
    | inl hspawn => exact (hsp hspawn).2.1
    | inr hfail => exact (hfl hfail).2.2.1
  · cases hor with
    | inl hspawn => rw [hspawn]; intro hc; cases hc
    | inr hfail => rw [hfail]; intro hc; cases hc
  · cases hor with
    | inl hspawn =>
      obtain ⟨_, _, _, e4, e5, _, _⟩ := hsp hspawn
      omega
    | inr hfail =>
      rw [(hfl hfail).2.2.2.1]

/-- Witness for C4 at a concrete input: three works, the second spawn
call fails; `all` reaches `Err` with that error, no outputs, no awaits,
only the first handle created and dropped. -/
theorem all_spawn_error_fail_fast_witness :
    (allRun (fun i => if i = 1 then some () else none)
      (List.replicate 1 AChoice.main ++ [AChoice.main])
      (allInit [⟨0, 1⟩, ⟨0, 2⟩, ⟨0, 3⟩] ([] : List Nat))).phase = APhase.failed ∧
    (allRun (fun i => if i = 1 then some () else none)
      (List.replicate 1 AChoice.main ++ [AChoice.main])
      (allInit [⟨0, 1⟩, ⟨0, 2⟩, ⟨0, 3⟩] ([] : List Nat))).err = some () ∧
    (allRun (fun i => if i = 1 then some () else none)
      (List.replicate 1 AChoice.main ++ [AChoice.main])
      (allInit [⟨0, 1⟩, ⟨0, 2⟩, ⟨0, 3⟩] ([] : List Nat))).outputs = [] := by
  have h := all_spawn_error_fail_fast [⟨0, 1⟩, ⟨0, 2⟩, ⟨0, 3⟩] ([] : List Nat)
    (fun i => if i = 1 then some () else none) 1 ()
    (by decide)
    (by intro i hi; have hz : i = 0 := by omega
        rw [hz]; rfl)
    rfl
    (List.replicate 1 AChoice.main ++ [AChoice.main])
  exact ⟨h.2.2.2.2.2, (h.1 h.2.2.2.2.2).1, h.2.1⟩

/-! ### The `all_limited` machine (bounded parallel join) -/

/-- Whether a task is currently in flight under the executor (its
wrapper future still exists and still owns its semaphore guard). -/
def isInFlight {α : Type} : ATask α → Bool
  | .running _ _ => true
  | _ => false

/-- State of the `all_limited` machine, embedding `ext::all_limited`:
the spawn loop acquires one permit of an `async_lock::Semaphore` of
`limit` permits before each `try_spawn` (suspending while none is
available), wraps the work in a `SemaphoreFuture` owning the acquired
guard, and the guard is released when that wrapper is dropped — on
completion, on cancellation, or on the error path.  `sem` is the number
of available permits and `holding` records that the spawn loop has
acquired a permit it has not yet moved into a spawned wrapper. -/
structure LimState (α ε : Type) where
  pending : List (RWork α)
  holding : Bool
  sem : Nat
  tasks : List (ATask α)
  waitIdx : Nat
  outputs : List α
  phase : APhase
  err : Option ε
  calls : Nat
  deriving DecidableEq, Repr

/-- One step of the `all_limited` coroutine.  Acquiring a permit is the
sole blocking point of the spawn loop; a failed `try_spawn` drops the
wrapper it was handed (releasing the in-transit guard) and drops the
partially built task vector (releasing every in-flight guard). -/
def limMain {α ε : Type} (pol : Nat → Option ε) (s : LimState α ε) :
    Option (LimState α ε) :=
  match s.phase with
  | .spawning =>
    match s.pending with
    | [] => some { s with phase := .awaiting }
    | w :: rest =>
      if s.holding then
        match pol s.calls with
        | some e =>
          some { s with
                 pending := rest
                 calls := s.calls + 1
                 holding := false
                 sem := s.sem + 1 + s.tasks.countP isInFlight
                 tasks := s.tasks.map (fun _ => ATask.dropped)
                 phase := .failed
                 err := some e }
        | none =>
          some { s with
                 pending := rest
                 calls := s.calls + 1
                 holding := false
                 tasks := s.tasks ++ [ATask.running w.fuel w.val] }
      else
        if s.sem = 0 then none
        else some { s with sem := s.sem - 1, holding := true }
  | .awaiting =>
    match s.tasks.get? s.waitIdx with
    | some (.done v) =>
      some { s with
             outputs := s.outputs ++ [v]
             waitIdx := s.waitIdx + 1 }
    | some _ => none
    | none => some { s with phase := .finished }
  | .finished => none
  | .failed => none

/-- One poll of a spawned wrapper by the executor.  When the inner work
completes, the executor drops the `SemaphoreFuture`, which releases its
guard: the permit returns to the pool in the same step in which the
output becomes available to the awaiting loop. -/
def limWork {α ε : Type} (i : Nat) (s : LimState α ε) :
    Option (LimState α ε) :=
  match s.tasks.get? i with
  | some (.running (f + 1) v) =>
    some { s with tasks := s.tasks.set i (.running f v) }
  | some (.running 0 v) =>
    some { s with
           tasks := s.tasks.set i (.done v)
           sem := s.sem + 1 }
  | _ => none

/-- One scheduler step of the `all_limited` machine. -/
def limStep {α ε : Type} (pol : Nat → Option ε) (c : AChoice)
    (s : LimState α ε) : Option (LimState α ε) :=
  match c with
  | .main => limMain pol s
  | .work i => limWork i s

/-- Run the `all_limited` machine under a schedule. -/
def limRun {α ε : Type} (pol : Nat → Option ε) (cs : List AChoice)
    (s : LimState α ε) : LimState α ε :=
  cs.foldl (fun s c => (limStep pol c s).getD s) s

/-- Initial state of `all_limited`: the semaphore holds `limit`
permits. -/
def limInit {α ε : Type} (works : List (RWork α)) (outs : List α)
    (limit : Nat) : LimState α ε :=
  { pending := works
    holding := false
    sem := limit
    tasks := []
    waitIdx := 0
    outputs := outs
    phase := .spawning
    err := none
    calls := 0 }

/-- The number of units of work concurrently in flight under the
executor. -/
def inflight {α ε : Type} (s : LimState α ε) : Nat :=
  s.tasks.countP isInFlight

/-- One when the spawn loop holds a permit it has not yet spawned
with. -/
def holdNat : Bool → Nat
  | true => 1
  | false => 0

/-! ### countP helper lemmas -/

/-- Setting an element to one with the same predicate value keeps the
count. -/
theorem countP_set_eq {β : Type} (p : β → Bool) (l : List β) (i : Nat)
    (t t2 : β) (h : l.get? i = some t) (hp : p t2 = p t) :
    (l.set i t2).countP p = l.countP p := by
  induction l generalizing i with
  | nil => simp at h
  | cons a l ih =>
    cases i with
    | zero =>
      simp only [List.get?] at h
      cases h
      simp [List.countP_cons, hp]
    | succ i =>
      simp only [List.get?] at h
      simp [List.countP_cons, ih i h]

/-- Setting a counted element to an uncounted one drops the count by
one. -/
theorem countP_set_dec {β : Type} (p : β → Bool) (l : List β) (i : Nat)
    (t t2 : β) (h : l.get? i = some t) (ht : p t = true)
    (ht2 : p t2 = false) :
    (l.set i t2).countP p + 1 = l.countP p := by
  induction l generalizing i with
  | nil => simp at h
  | cons a l ih =>
    cases i with
    | zero =>
      simp only [List.get?] at h
      cases h
      simp [List.countP_cons, ht, ht2]
    | succ i =>
      simp only [List.get?] at h
      simp only [List.set, List.countP_cons]
      have := ih i h
      omega

/-- Dropping every task leaves nothing in flight. -/
theorem countP_map_const_dropped {α : Type} (l : List (ATask α)) :
    (l.map (fun _ => (ATask.dropped : ATask α))).countP isInFlight = 0 := by
  induction l with
  | nil => rfl
  | cons a l ih => simp [List.countP_cons, isInFlight, ih]

/-! ### Permit accounting invariant of `all_limited` (claims C2, C9) -/

/-- Permit accounting of the bounded join: at every instant the
available permits, the permit the spawn loop holds in transit, and the
permits owned by the in-flight wrappers add up to exactly `limit` —
each in-flight unit of work owns exactly one permit, and a permit is
back in the pool as soon as its wrapper is gone. -/
def LimPermits {α ε : Type} (limit : Nat) (s : LimState α ε) : Prop :=
  s.sem + holdNat s.holding + s.tasks.countP isInFlight = limit

/-- Permit accounting holds initially. -/
theorem limPermits_init {α ε : Type} (works : List (RWork α))
    (outs : List α) (limit : Nat) :
    LimPermits limit (limInit (ε := ε) works outs limit) := by
  show limit + holdNat false + (([] : List (ATask α)).countP isInFlight) = limit
  simp [holdNat]

/-- Permit accounting is preserved by every scheduler step, for every
spawn-error policy. -/
theorem limPermits_step {α ε : Type} {limit : Nat} {pol : Nat → Option ε}
    {s : LimState α ε} (h : LimPermits limit s) (c : AChoice) :
    LimPermits limit ((limStep pol c s).getD s) := by
  unfold LimPermits at h
  cases c with
  | work i =>
    cases hg : s.tasks.get? i with
    | none =>
      simp only [limStep, limWork, hg, Option.getD_none]
      exact h
    | some t =>
      cases t with
      | running f v =>
        cases f with
        | zero =>
          have hstep : limStep pol (.work i) s = some
              { s with tasks := s.tasks.set i (.done v)
                       sem := s.sem + 1 } := by
            simp only [limStep, limWork, hg]
          rw [hstep, Option.getD_some]
          show s.sem + 1 + holdNat s.holding
              + (s.tasks.set i (ATask.done v)).countP isInFlight = limit
          have hd := countP_set_dec isInFlight s.tasks i _ (ATask.done v) hg rfl rfl
          omega
        | succ f =>
          have hstep : limStep pol (.work i) s = some
              { s with tasks := s.tasks.set i (.running f v) } := by
            simp only [limStep, limWork, hg]
          rw [hstep, Option.getD_some]
          show s.sem + holdNat s.holding
              + (s.tasks.set i (ATask.running f v)).countP isInFlight = limit
          rw [countP_set_eq isInFlight s.tasks i _ (ATask.running f v) hg rfl]
          exact h
      | done v =>
        simp only [limStep, limWork, hg, Option.getD_none]
        exact h
      | dropped =>
        simp only [limStep, limWork, hg, Option.getD_none]
        exact h
  | main =>
    cases hp : s.phase with
    | finished =>
      simp only [limStep, limMain, hp, Option.getD_none]
      exact h
    | failed =>
      simp only [limStep, limMain, hp, Option.getD_none]
      exact h
    | awaiting =>
      cases hg : s.tasks.get? s.waitIdx with
      | none =>
        simp only [limStep, limMain, hp, hg, Option.getD_some]
        exact h
      | some t =>
        cases t with
        | done v =>
          simp only [limStep, limMain, hp, hg, Option.getD_some]
          exact h
        | running f v =>
          simp only [limStep, limMain, hp, hg, Option.getD_none]
          exact h
        | dropped =>
          simp only [limStep, limMain, hp, hg, Option.getD_none]
          exact h
    | spawning =>
      cases hpd : s.pending with
      | nil =>
        simp only [limStep, limMain, hp, hpd, Option.getD_some]
        exact h
      | cons w rest =>
        cases hh : s.holding with
        | true =>
          cases hpol : pol s.calls with
          | some e =>
            have hstep : limStep pol .main s = some
                { s with
                  pending := rest
                  calls := s.calls + 1
                  holding := false
                  sem := s.sem + 1 + s.tasks.countP isInFlight
                  tasks := s.tasks.map (fun _ => ATask.dropped)
                  phase := .failed
                  err := some e } := by
              simp only [limStep, limMain, hp, hpd, hh, if_true, hpol]
            rw [hstep, Option.getD_some]
            show s.sem + 1 + s.tasks.countP isInFlight + holdNat false
                + ((s.tasks.map (fun _ => (ATask.dropped : ATask α))).countP isInFlight) = limit
            rw [countP_map_const_dropped]
            rw [hh] at h
            simp only [holdNat] at h ⊢
            omega
          | none =>
            have hstep : limStep pol .main s = some
                { s with
                  pending := rest
                  calls := s.calls + 1
                  holding := false
                  tasks := s.tasks ++ [ATask.running w.fuel w.val] } := by
              simp only [limStep, limMain, hp, hpd, hh, if_true, hpol]
            rw [hstep, Option.getD_some]
            show s.sem + holdNat false
                + ((s.tasks ++ [ATask.running w.fuel w.val]).countP isInFlight) = limit
            have hc : (s.tasks ++ [ATask.running w.fuel w.val]).countP isInFlight
                = s.tasks.countP isInFlight + 1 := by
              simp [List.countP_append, List.countP_cons, isInFlight]
            rw [hc]
            rw [hh] at h
            simp only [holdNat] at h ⊢
            omega
        | false =>
          cases hsem : s.sem with
          | zero =>
            have hstep : limStep pol .main s = none := by
              simp only [limStep, limMain, hp, hpd, hh, hsem]
              rfl
            rw [hstep, Option.getD_none]
            exact h
          | succ n =>
            have hstep : limStep pol .main s = some
                { s with sem := s.sem - 1, holding := true } := by
              simp only [limStep, limMain, hp, hpd, hh, hsem]
              rfl
            rw [hstep, Option.getD_some]
            show s.sem - 1 + holdNat true + s.tasks.countP isInFlight = limit
            rw [hh] at h
            simp only [holdNat] at h ⊢
            omega

/-- Permit accounting is preserved by whole schedules. -/
theorem limPermits_run {α ε : Type} {limit : Nat} (pol : Nat → Option ε)
    (cs : List AChoice) {s : LimState α ε} (h : LimPermits limit s) :
    LimPermits limit (limRun pol cs s) := by
  induction cs generalizing s with
  | nil => exact h
  | cons c cs ih => exact ih (limPermits_step h c)

/-! ### Output-order invariant of `all_limited` -/

/-- Invariant of the `all_limited` machine when every `try_spawn` call
succeeds: no error ever surfaces, each spawned handle delivers the value
of the work it was spawned from (in input order), and the output
collector holds exactly the values of the first `waitIdx` works. -/
def LimInv {α ε : Type} (works : List (RWork α)) (outs : List α)
    (s : LimState α ε) : Prop :=
  s.err = none ∧
  s.phase ≠ APhase.failed ∧
  s.tasks.map taskVal = ((works.map RWork.val).take s.tasks.length).map some ∧
  s.waitIdx ≤ s.tasks.length ∧
  s.outputs = outs ++ (works.map RWork.val).take s.waitIdx ∧
  (s.phase = APhase.spawning → s.pending = works.drop s.tasks.length ∧ s.waitIdx = 0) ∧
  (s.phase ≠ APhase.spawning → s.pending = [] ∧ s.tasks.length = works.length) ∧
  (s.phase = APhase.finished → s.waitIdx = works.length)

/-- The output-order invariant holds initially. -/
theorem limInv_init {α ε : Type} (works : List (RWork α)) (outs : List α)
    (limit : Nat) :
    LimInv works outs (limInit (ε := ε) works outs limit) := by
  refine ⟨rfl, by simp [limInit], rfl, Nat.le_refl 0, by simp [limInit], ?_, ?_, ?_⟩
  · intro _; exact ⟨rfl, rfl⟩
  · intro hc; exact absurd rfl hc
  · intro hc; cases hc

/-- The output-order invariant is preserved by every scheduler step when
spawns never fail. -/
theorem limInv_step {α ε : Type} {works : List (RWork α)} {outs : List α}
    {pol : Nat → Option ε} (hpol : ∀ i, pol i = none)
    {s : LimState α ε} (h : LimInv works outs s) (c : AChoice) :
    LimInv works outs ((limStep pol c s).getD s) := by
  have h0 := h
  obtain ⟨h1, h2, h4, h5, h6, h7, h8, h9⟩ := h
  have hlen : s.tasks.length ≤ works.length := by
    have hc := congrArg List.length h4
    simp [List.length_take] at hc
    omega
  cases c with
  | work i =>
    cases hg : s.tasks.get? i with
    | none =>
      simp only [limStep, limWork, hg, Option.getD_none]
      exact h0
    | some t =>
      cases t with
      | done v =>
        simp only [limStep, limWork, hg, Option.getD_none]
        exact h0
      | dropped =>
        simp only [limStep, limWork, hg, Option.getD_none]
        exact h0
      | running f v =>
        have hmain : ∀ (t2 : ATask α), taskVal t2 = taskVal (ATask.running f v) →
            ∀ (s2 : LimState α ε), s2 = { s with tasks := s.tasks.set i t2 } →
            LimInv works outs s2 := by
          intro t2 hval s2 hs2
          subst hs2
          refine ⟨h1, h2, ?_, ?_, h6, ?_, ?_, h9⟩
          · rw [List.length_set, map_set_congr taskVal s.tasks i _ t2 hg ?_]
            · exact h4
            · rw [hval]
          · rw [List.length_set]; exact h5
          · intro hc
            obtain ⟨hpend, hwait⟩ := h7 hc
            rw [List.length_set]
            exact ⟨hpend, hwait⟩
          · intro hc
            obtain ⟨hpend, hleneq⟩ := h8 hc
            rw [List.length_set]
            exact ⟨hpend, hleneq⟩
        cases f with
        | zero =>
          have hstep : limStep pol (.work i) s = some
              { s with tasks := s.tasks.set i (.done v)
                       sem := s.sem + 1 } := by
            simp only [limStep, limWork, hg]
          rw [hstep, Option.getD_some]
          have := hmain (ATask.done v) rfl
              { s with tasks := s.tasks.set i (.done v) } rfl
          exact this
        | succ f =>
          have hstep : limStep pol (.work i) s = some
              { s with tasks := s.tasks.set i (.running f v) } := by
            simp only [limStep, limWork, hg]
          rw [hstep, Option.getD_some]
          exact hmain (ATask.running f v) rfl _ rfl
  | main =>
    cases hp : s.phase with
    | finished =>
      simp only [limStep, limMain, hp, Option.getD_none]
      exact h0
    | failed => exact absurd hp h2
    | spawning =>
      obtain ⟨hpend, hwait⟩ := h7 hp
      cases hpd : s.pending with
      | nil =>
        have hge : works.length ≤ s.tasks.length :=
          length_le_of_drop_nil works s.tasks.length (by rw [← hpend, hpd])
        have heq : s.tasks.length = works.length := Nat.le_antisymm hlen hge
        simp only [limStep, limMain, hp, hpd, Option.getD_some]
        refine ⟨h1, by simp, h4, h5, h6, ?_, ?_, ?_⟩
        · intro hc; cases hc
        · intro _; exact ⟨rfl, heq⟩
        · intro hc; cases hc
      | cons w rest =>
        obtain ⟨hgetw, hdrop1⟩ :=
          drop_cons_inv works s.tasks.length w rest (by rw [← hpend, hpd])
        have hmv : (works.map RWork.val).get? s.tasks.length = some w.val := by
          rw [List.get?_map, hgetw]; rfl
        cases hh : s.holding with
        | true =>
          have hpol0 := hpol s.calls
          have hstep : limStep pol .main s = some
              { s with
                pending := rest
                calls := s.calls + 1
                holding := false
                tasks := s.tasks ++ [ATask.running w.fuel w.val] } := by
            simp only [limStep, limMain, hp, hpd, hh, if_true, hpol0]
          rw [hstep, Option.getD_some]
          have hlen1 : (s.tasks ++ [ATask.running w.fuel w.val]).length
              = s.tasks.length + 1 := by simp
          refine ⟨h1, h2, ?_, ?_, h6, ?_, ?_, ?_⟩
          · rw [List.map_append, h4, hlen1,
                take_succ_of_get? _ _ _ hmv, List.map_append]
            rfl
          · rw [hlen1]
            exact Nat.le_trans h5 (Nat.le_add_right _ _)
          · intro _
            rw [hlen1]
            exact ⟨hdrop1.symm, hwait⟩
          · intro hc; exact absurd hp hc
          · intro hc
            have hc2 : s.phase = APhase.finished := hc
            rw [hp] at hc2
            cases hc2
        | false =>
          cases hsem : s.sem with
          | zero =>
            have hstep : limStep pol .main s = none := by
              simp only [limStep, limMain, hp, hpd, hh, hsem]
              rfl
            rw [hstep, Option.getD_none]
            exact h0
          | succ n =>
            have hstep : limStep pol .main s = some
                { s with sem := s.sem - 1, holding := true } := by
              simp only [limStep, limMain, hp, hpd, hh, hsem]
              rfl
            rw [hstep, Option.getD_some]
            refine ⟨h1, h2, h4, h5, h6, ?_, ?_, h9⟩
            · intro _; exact ⟨hpend, hwait⟩
            · intro hc; exact absurd hp (by
                intro hc2
                exact hc (by rw [hc2]))
    | awaiting =>
      obtain ⟨hpend2, hleneq⟩ := h8 (by rw [hp]; intro hc; cases hc)
      cases hg : s.tasks.get? s.waitIdx with
      | none =>
        have hgel : s.tasks.length ≤ s.waitIdx := le_of_get?_none _ _ hg
        have hwid : s.waitIdx = works.length := by omega
        simp only [limStep, limMain, hp, hg, Option.getD_some]
        refine ⟨h1, by simp, h4, h5, h6, ?_, ?_, ?_⟩
        · intro hc; cases hc
        · intro _; exact ⟨hpend2, hleneq⟩
        · intro _; exact hwid
      | some t =>
        cases t with
        | running f v =>
          simp only [limStep, limMain, hp, hg, Option.getD_none]
          exact h0
        | dropped =>
          simp only [limStep, limMain, hp, hg, Option.getD_none]
          exact h0
        | done v =>
          have hwlt : s.waitIdx < s.tasks.length := lt_of_get?_some _ _ _ hg
          have hmv : (works.map RWork.val).get? s.waitIdx = some v := by
            have e1 : (s.tasks.map taskVal).get? s.waitIdx = some (some v) := by
              rw [List.get?_map, hg]; rfl
            rw [h4, List.get?_map, get?_take_lt _ _ _ hwlt] at e1
            cases hx : (works.map RWork.val).get? s.waitIdx with
            | none => rw [hx] at e1; cases e1
            | some u =>
              rw [hx] at e1
              simp only [Option.map_some'] at e1
              cases e1
              rfl
          simp only [limStep, limMain, hp, hg, Option.getD_some]
          refine ⟨h1, by simp, h4, hwlt, ?_, ?_, ?_, ?_⟩
          · rw [take_succ_of_get? _ _ _ hmv, h6, List.append_assoc]
          · intro hc; simp at hc
          · intro _; exact ⟨hpend2, hleneq⟩
          · intro hc; simp at hc

/-- The output-order invariant is preserved by whole schedules. -/
theorem limInv_run {α ε : Type} {works : List (RWork α)} {outs : List α}
    (pol : Nat → Option ε) (hpol : ∀ i, pol i = none)
    (cs : List AChoice) {s : LimState α ε} (h : LimInv works outs s) :
    LimInv works outs (limRun pol cs s) := by
  induction cs generalizing s with
  | nil => exact h
  | cons c cs ih => exact ih (limInv_step hpol h c)

/-! ### A concrete schedule driving `all_limited` to completion -/

/-- Unfolding `limRun` one step. -/
theorem limRun_cons {α ε : Type} (pol : Nat → Option ε) (c : AChoice)
    (cs : List AChoice) (s : LimState α ε) :
    limRun pol (c :: cs) s = limRun pol cs ((limStep pol c s).getD s) := rfl

/-- Splitting `limRun` over concatenated schedules. -/
theorem limRun_append {α ε : Type} (pol : Nat → Option ε)
    (a b : List AChoice) (s : LimState α ε) :
    limRun pol (a ++ b) s = limRun pol b (limRun pol a s) := by
  simp [limRun, List.foldl_append]

/-- Polling one spawned wrapper through all its fuel until it completes,
which also returns its permit to the pool. -/
theorem limTask_one {α ε : Type} (pol : Nat → Option ε) (f : Nat) (v : α) :
    ∀ (s : LimState α ε) (k : Nat), s.tasks.get? k = some (.running f v) →
    limRun pol (List.replicate (f + 1) (.work k)) s =
      { s with tasks := s.tasks.set k (.done v)
               sem := s.sem + 1 } := by
  induction f with
  | zero =>
    intro s k hg
    have hstep : limStep pol (.work k) s = some
        { s with tasks := s.tasks.set k (.done v)
                 sem := s.sem + 1 } := by
      simp only [limStep, limWork, hg]
    rw [List.replicate_succ, limRun_cons, hstep, Option.getD_some]
    rfl
  | succ f ih =>
    intro s k hg
    have hstep : limStep pol (.work k) s = some
        { s with tasks := s.tasks.set k (.running f v) } := by
      simp only [limStep, limWork, hg]
    rw [List.replicate_succ, limRun_cons, hstep, Option.getD_some]
    have hg2 : ((s.tasks.set k (ATask.running f v))).get? k
        = some (.running f v) :=
      get?_set_self _ _ _ (lt_of_get?_some _ _ _ hg)
    rw [ih _ k hg2]
    rw [set_set_same]

/-- The canonical bounded-join schedule: for each work in input order,
acquire a permit, spawn, and poll the freshly spawned wrapper to
completion before moving on (this uses at most one permit at a time, so
it is enabled whenever `limit ≥ 1`). -/
def schedLim {α : Type} (ws : List (RWork α)) (k : Nat) : List AChoice :=
  match ws with
  | [] => []
  | w :: rest =>
    AChoice.main :: AChoice.main ::
      (List.replicate (w.fuel + 1) (AChoice.work k) ++ schedLim rest (k + 1))

/-- Running the bounded spawn loop to exhaustion under the canonical
schedule: each work is spawned and completed in turn, every permit
returning to the pool. -/
theorem limSchedSpawn {α ε : Type} (pol : Nat → Option ε)
    (hpol : ∀ i, pol i = none) (limit : Nat) (hlim : 1 ≤ limit)
    (ws : List (RWork α)) :
    ∀ (ds : List (ATask α)) (s : LimState α ε),
    s.phase = .spawning → s.holding = false → s.sem = limit →
    s.pending = ws → s.tasks = ds →
    limRun pol (schedLim ws ds.length) s =
      { s with pending := []
               tasks := ds ++ ws.map mkDone
               calls := s.calls + ws.length } := by
  induction ws with
  | nil =>
    intro ds s hp hh hsem hpend hts
    simp only [schedLim, limRun, List.foldl_nil]
    cases s
    simp_all
  | cons w rest ih =>
    intro ds s hp hh hsem hpend hts
    have hnz : ¬ s.sem = 0 := by omega
    have hs1 : limStep pol .main s = some
        { s with sem := s.sem - 1, holding := true } := by
      simp [limStep, limMain, hp, hpend, hh, hnz]
    have hs2 : limStep pol .main { s with sem := s.sem - 1, holding := true }
        = some { s with sem := s.sem - 1
                        holding := false
                        pending := rest
                        calls := s.calls + 1
                        tasks := s.tasks ++ [ATask.running w.fuel w.val] } := by
      simp [limStep, limMain, hp, hpend, hpol s.calls]
    rw [schedLim, limRun_cons, hs1, Option.getD_some, limRun_cons, hs2,
        Option.getD_some, limRun_append]
    have hg : ({ s with sem := s.sem - 1
                        holding := false
                        pending := rest
                        calls := s.calls + 1
                        tasks := s.tasks ++ [ATask.running w.fuel w.val] } :
        LimState α ε).tasks.get? ds.length = some (.running w.fuel w.val) := by
      show (s.tasks ++ [ATask.running w.fuel w.val]).get? ds.length = _
      rw [hts]
      exact get?_append_cons ds _ _
    rw [limTask_one pol w.fuel w.val _ ds.length hg]
    have hset : (s.tasks ++ [ATask.running w.fuel w.val]).set ds.length
        (ATask.done w.val) = (ds ++ [mkDone w]) := by
      rw [hts]
      have := set_append_cons ds (ATask.running w.fuel w.val) (ATask.done w.val) []
      rw [this]
      rfl
    have ih2 := ih (ds ++ [mkDone w])
        { s with sem := s.sem - 1 + 1
                 holding := false
                 pending := rest
                 calls := s.calls + 1
                 tasks := (s.tasks ++ [ATask.running w.fuel w.val]).set ds.length
                   (ATask.done w.val) }
        hp rfl (by show s.sem - 1 + 1 = limit; omega) rfl (by
          show (s.tasks ++ [ATask.running w.fuel w.val]).set ds.length
            (ATask.done w.val) = ds ++ [mkDone w]
          exact hset)
    have hlen2 : ds.length + 1 = (ds ++ [mkDone w]).length := by simp
    rw [hlen2, ih2]
    cases s
    simp_all [List.append_assoc]
    omega

/-- Transition of `all_limited` from the spawn loop into the await
loop. -/
theorem limToAwait {α ε : Type} (pol : Nat → Option ε) (s : LimState α ε)
    (hp : s.phase = .spawning) (hpend : s.pending = []) :
    limRun pol [.main] s = { s with phase := .awaiting } := by
  rw [limRun_cons]
  have hstep : limStep pol .main s = some { s with phase := .awaiting } := by
    simp only [limStep, limMain, hp, hpend]
  rw [hstep, Option.getD_some]
  rfl

/-- Awaiting a run of already-completed bounded-join handles, in input
order. -/
theorem limAwaitSteps {α ε : Type} (pol : Nat → Option ε) (vs2 : List α) :
    ∀ (vs1 : List α) (s : LimState α ε), s.phase = .awaiting →
    s.tasks = (vs1 ++ vs2).map ATask.done → s.waitIdx = vs1.length →
    limRun pol (List.replicate vs2.length .main) s =
      { s with outputs := s.outputs ++ vs2
               waitIdx := vs1.length + vs2.length } := by
  induction vs2 with
  | nil =>
    intro vs1 s hp hts hw
    simp only [List.length_nil, List.replicate, limRun, List.foldl_nil]
    cases s
    simp_all
  | cons v vs2 ih =>
    intro vs1 s hp hts hw
    have hg : s.tasks.get? s.waitIdx = some (.done v) := by
      rw [hts, hw]
      have hsplit : (vs1 ++ v :: vs2).map (ATask.done (α := α))
          = vs1.map ATask.done ++ ATask.done v :: vs2.map ATask.done := by
        simp
      rw [hsplit]
      have hl : vs1.length = (vs1.map (ATask.done (α := α))).length := by simp
      rw [hl]
      exact get?_append_cons _ _ _
    have hstep : limStep pol .main s = some
        { s with outputs := s.outputs ++ [v]
                 waitIdx := s.waitIdx + 1 } := by
      simp only [limStep, limMain, hp, hg]
    rw [List.length_cons, List.replicate_succ, limRun_cons, hstep,
        Option.getD_some]
    have ih2 := ih (vs1 ++ [v])
        { s with outputs := s.outputs ++ [v]
                 waitIdx := s.waitIdx + 1 }
        hp (by rw [hts]; simp) (by rw [hw]; simp)
    rw [ih2]
    cases s
    simp_all [List.append_assoc]
    omega

/-- The final transition of `all_limited`: once every handle has been
awaited the combinator returns `Ok`. -/
theorem limFinishStep {α ε : Type} (pol : Nat → Option ε) (s : LimState α ε)
    (hp : s.phase = .awaiting) (hg : s.tasks.get? s.waitIdx = none) :
    limRun pol [.main] s = { s with phase := .finished } := by
  rw [limRun_cons]
  have hstep : limStep pol .main s = some { s with phase := .finished } := by
    simp only [limStep, limMain, hp, hg]
  rw [hstep, Option.getD_some]
  rfl

/-- A schedule that drives `all_limited` to completion whenever
`limit ≥ 1`. -/
def schedLimAll {α : Type} (works : List (RWork α)) : List AChoice :=
  schedLim works 0 ++ [AChoice.main]
    ++ List.replicate works.length AChoice.main ++ [AChoice.main]

/-- Running `all_limited` under the canonical schedule reaches the `Ok`
state with the works' outputs appended in input order. -/
theorem limSched_result {α ε : Type} (pol : Nat → Option ε)
    (hpol : ∀ i, pol i = none) (limit : Nat) (hlim : 1 ≤ limit)
    (works : List (RWork α)) (outs : List α) :
    limRun pol (schedLimAll works) (limInit works outs limit) =
      { pending := []
        holding := false
        sem := limit
        tasks := works.map mkDone
        waitIdx := works.length
        outputs := outs ++ works.map RWork.val
        phase := .finished
        err := none
        calls := works.length } := by
  have e1 : limRun pol (schedLim works 0) (limInit works outs limit)
      = { pending := []
          holding := false
          sem := limit
          tasks := works.map mkDone
          waitIdx := 0
          outputs := outs
          phase := .spawning
          err := none
          calls := works.length } := by
    have h := limSchedSpawn pol hpol limit hlim works []
      (limInit (α := α) (ε := ε) works outs limit) rfl rfl rfl rfl rfl
    simpa [limInit] using h
  have e2 : limRun pol [AChoice.main]
      { pending := ([] : List (RWork α))
        holding := false
        sem := limit
        tasks := works.map mkDone
        waitIdx := 0
        outputs := outs
        phase := .spawning
        err := (none : Option ε)
        calls := works.length }
      = { pending := ([] : List (RWork α))
          holding := false
          sem := limit
          tasks := works.map mkDone
          waitIdx := 0
          outputs := outs
          phase := .awaiting
          err := none
          calls := works.length } :=
    limToAwait pol _ rfl rfl
  have e3 : limRun pol (List.replicate works.length AChoice.main)
      { pending := ([] : List (RWork α))
        holding := false
        sem := limit
        tasks := works.map mkDone
        waitIdx := 0
        outputs := outs
        phase := .awaiting
        err := (none : Option ε)
        calls := works.length }
      = { pending := ([] : List (RWork α))
          holding := false
          sem := limit
          tasks := works.map mkDone
          waitIdx := works.length
          outputs := outs ++ works.map RWork.val
          phase := .awaiting
          err := none
          calls := works.length } := by
    have h := limAwaitSteps pol (works.map RWork.val) []
      { pending := ([] : List (RWork α))
        holding := false
        sem := limit
        tasks := works.map mkDone
        waitIdx := 0
        outputs := outs
        phase := .awaiting
        err := (none : Option ε)
        calls := works.length }
      rfl (by simp [mkDone, Function.comp]) rfl
    simpa using h
  have e4 : limRun pol [AChoice.main]
      { pending := ([] : List (RWork α))
        holding := false
        sem := limit
        tasks := works.map mkDone
        waitIdx := works.length
        outputs := outs ++ works.map RWork.val
        phase := .awaiting
        err := (none : Option ε)
        calls := works.length }
      = { pending := ([] : List (RWork α))
          holding := false
          sem := limit
          tasks := works.map mkDone
          waitIdx := works.length
          outputs := outs ++ works.map RWork.val
          phase := .finished
          err := none
          calls := works.length } :=
    limFinishStep pol _ rfl (get?_none_of_le _ _ (by simp))
  unfold schedLimAll
  rw [limRun_append, limRun_append, limRun_append, e1, e2, e3, e4]

/-! ### Claims C2 and C9 -/

/-- C2: for every `limit ≥ 1` and every finite sequence of works,
`all_limited` never allows more than `limit` of the provided units of
work to be concurrently in flight under the executor at any instant
(every reachable state of every scheduler interleaving has at most
`limit` in-flight wrappers), and still returns the outputs in input
order: any interleaving that returns has appended exactly the works'
outputs in input order, and some interleaving does return. -/
theorem all_limited_bounded_and_in_order {α ε : Type} (works : List (RWork α))
    (outs : List α) (limit : Nat) (hlim : 1 ≤ limit) (cs : List AChoice) :
    inflight (limRun (ε := ε) (fun _ => none) cs (limInit works outs limit)) ≤ limit ∧
    ((limRun (ε := ε) (fun _ => none) cs (limInit works outs limit)).phase = APhase.finished →
      (limRun (ε := ε) (fun _ => none) cs (limInit works outs limit)).outputs
        = outs ++ works.map RWork.val) ∧
    ∃ cs2,
      (limRun (ε := ε) (fun _ => none) cs2 (limInit works outs limit)).phase = APhase.finished ∧
      (limRun (ε := ε) (fun _ => none) cs2 (limInit works outs limit)).outputs
        = outs ++ works.map RWork.val := by
  refine ⟨?_, ?_, ?_⟩
  · have h := limPermits_run (fun _ => none) cs
      (limPermits_init (ε := ε) works outs limit)
    unfold LimPermits at h
    unfold inflight
    omega
  · intro hf
    obtain ⟨h1, h2, h4, h5, h6, h7, h8, h9⟩ :=
      limInv_run (fun _ => none) (fun _ => rfl) cs
        (limInv_init works outs limit)
    rw [h6, h9 hf]
    have htl : (works.map RWork.val).take works.length = works.map RWork.val := by
      apply List.take_of_length_le
      simp
    rw [htl]
  · refine ⟨schedLimAll works, ?_, ?_⟩
    · rw [limSched_result (fun _ => none) (fun _ => rfl) limit hlim works outs]
    · rw [limSched_result (fun _ => none) (fun _ => rfl) limit hlim works outs]

/-- Witness for C2 at a concrete input: two works, `limit = 2`; the
bound holds and the outputs come back in input order. -/
theorem all_limited_bounded_and_in_order_witness :
    inflight (limRun (ε := Unit) (fun _ => none) (schedLimAll [⟨1, 1⟩, ⟨0, 2⟩])
      (limInit [⟨1, 1⟩, ⟨0, 2⟩] [] 2)) ≤ 2 ∧
    (limRun (ε := Unit) (fun _ => none) (schedLimAll [⟨1, 1⟩, ⟨0, 2⟩])
      (limInit [⟨1, 1⟩, ⟨0, 2⟩] [] 2)).outputs = [1, 2] :=
  have h := all_limited_bounded_and_in_order (ε := Unit) [⟨1, 1⟩, ⟨0, 2⟩] [] 2
    (by decide) (schedLimAll [⟨1, 1⟩, ⟨0, 2⟩])
  ⟨h.1, h.2.1 (by decide)⟩

/-- C9: permit accounting of `all_limited` — in every reachable state,
under every spawn-error policy and every scheduler interleaving, the
available permits, the permit the spawn loop holds in transit, and the
permits owned by in-flight wrappers add up to exactly `limit`.  Hence
each in-flight unit of work owns exactly one permit; a wrapper that has
completed (its output available to the await loop) or been dropped on
the error path no longer holds one, its permit having returned to the
pool in the same step that retired the wrapper. -/
theorem concurrency_permit_ownership {α ε : Type} (works : List (RWork α))
    (outs : List α) (limit : Nat) (pol : Nat → Option ε) (cs : List AChoice) :
    (limRun pol cs (limInit works outs limit)).sem
      + holdNat (limRun pol cs (limInit works outs limit)).holding
      + inflight (limRun pol cs (limInit works outs limit)) = limit :=
  limPermits_run pol cs (limPermits_init works outs limit)

/-! ### The `or` machine (race with cancellation) -/

/-- A unit of work handed to `or`: it may become ready with a value
after some polls, never complete, or terminate abnormally after some
polls (its wrapper is then dropped without ever delivering). -/
inductive Work (α : Type) where
  | ready (fuel : Nat) (val : α)
  | stuck
  | panics (fuel : Nat)
  deriving DecidableEq, Repr

/-- Core state of one spawned `SenderFuture` wrapper: still running the
inner work, finished having attempted its non-blocking deposit (`ok`
records whether the `try_send` succeeded), or terminated abnormally. -/
inductive OCore (α : Type) where
  | running (w : Work α)
  | sent (ok : Bool)
  | panicked
  deriving DecidableEq, Repr

/-- One spawned racer: its wrapper core plus whether `or` has already
issued a cancellation (or drop) for its handle. -/
structure OTask (α : Type) where
  core : OCore α
  cancelled : Bool
  deriving DecidableEq, Repr

/-- Whether a racer's wrapper is still alive and owns a cloned mailbox
sender: it does exactly while the inner work is still running and the
handle has not been cancelled or dropped (on completion, abnormal
termination, cancellation, or drop the executor destroys the wrapper,
destroying the cloned sender with it). -/
def isLive {α : Type} (t : OTask α) : Bool :=
  match t.core, t.cancelled with
  | .running _, false => true
  | _, _ => false

/-- Position of the `or` coroutine: spawn loop, blocked on the mailbox
receive, cancel loop over handle `k`, returned `Ok`, returned `Err`
after a spawn failure, or hit the `expect` panic on a closed mailbox. -/
inductive OPhase where
  | spawning
  | receiving
  | cancelling (k : Nat)
  | finished
  | failed
  | panicMain
  deriving DecidableEq, Repr

/-- State of the `or` machine, embedding `ext::or`: a single-slot
`async_channel::bounded(1)` mailbox (`slot`), a live-sender count
(`senders`, initially 1 for the original `sender` local that `or` keeps
alive until it returns; each spawn clones it into the wrapper), spawned
racers, and the received value.  `deposits` counts the successful
`try_send`s and `recvCount` the completed receives, for stating the
mailbox claims. -/
structure OrState (α ε : Type) where
  pending : List (Work α)
  tasks : List (OTask α)
  slot : Option α
  senders : Nat
  deposits : Nat
  recvCount : Nat
  received : Option α
  phase : OPhase
  err : Option ε
  calls : Nat
  deriving DecidableEq, Repr

/-- One step of the `or` coroutine.  Spawning clones the sender into the
wrapper; a spawn failure drops the fresh wrapper and the task vector
(implicitly cancelling every racer) and surfaces the error.  The receive
takes the slot value if present; on an empty closed channel (no live
sender) it would hit the `expect` panic.  After receiving, `cancel` is
called and awaited on every handle in order, and only then does `or`
return the received value. -/
def orMain {α ε : Type} (pol : Nat → Option ε) (s : OrState α ε) :
    Option (OrState α ε) :=
  match s.phase with
  | .spawning =>
    match s.pending with
    | [] => some { s with phase := .receiving }
    | w :: rest =>
      match pol s.calls with
      | some e =>
        some { s with
               pending := rest
               calls := s.calls + 1
               senders := s.senders - s.tasks.countP isLive
               tasks := s.tasks.map (fun t => { t with cancelled := true })
               phase := .failed
               err := some e }
      | none =>
        some { s with
               pending := rest
               calls := s.calls + 1
               senders := s.senders + 1
               tasks := s.tasks ++ [⟨.running w, false⟩] }
  | .receiving =>
    match s.slot with
    | some v =>
      some { s with
             slot := none
             received := some v
             recvCount := s.recvCount + 1
             phase := .cancelling 0 }
    | none =>
      if s.senders = 0 then some { s with phase := .panicMain } else none
  | .cancelling k =>
    match s.tasks.get? k with
    | some t =>
      some { s with
             tasks := s.tasks.set k { t with cancelled := true }
             senders := if isLive t then s.senders - 1 else s.senders
             phase := .cancelling (k + 1) }
    | none => some { s with phase := .finished }
  | .finished => none
  | .failed => none
  | .panicMain => none

/-- One poll of a spawned racer by the executor.  When the inner work
becomes ready the wrapper performs the non-blocking `try_send`: it
succeeds exactly when the slot is empty, and a failed attempt has no
effect on the mailbox (the value is silently dropped).  Either way the
wrapper then completes and its cloned sender is destroyed.  An
abnormally terminating work destroys its wrapper (and cloned sender)
without any deposit attempt. -/
def orWork {α ε : Type} (i : Nat) (s : OrState α ε) :
    Option (OrState α ε) :=
  match s.tasks.get? i with
  | some ⟨.running (.ready 0 v), false⟩ =>
    match s.slot with
    | none =>
      some { s with
             tasks := s.tasks.set i ⟨.sent true, false⟩
             slot := some v
             deposits := s.deposits + 1
             senders := s.senders - 1 }
    | some _ =>
      some { s with
             tasks := s.tasks.set i ⟨.sent false, false⟩
             senders := s.senders - 1 }
  | some ⟨.running (.ready (f + 1) v), false⟩ =>
    some { s with tasks := s.tasks.set i ⟨.running (.ready f v), false⟩ }
  | some ⟨.running (.panics 0), false⟩ =>
    some { s with
           tasks := s.tasks.set i ⟨.panicked, false⟩
           senders := s.senders - 1 }
  | some ⟨.running (.panics (f + 1)), false⟩ =>
    some { s with tasks := s.tasks.set i ⟨.running (.panics f), false⟩ }
  | _ => none

/-- One scheduler step of the `or` machine. -/
def orStep {α ε : Type} (pol : Nat → Option ε) (c : AChoice)
    (s : OrState α ε) : Option (OrState α ε) :=
  match c with
  | .main => orMain pol s
  | .work i => orWork i s

/-- Run the `or` machine under a schedule. -/
def orRun {α ε : Type} (pol : Nat → Option ε) (cs : List AChoice)
    (s : OrState α ε) : OrState α ε :=
  cs.foldl (fun s c => (orStep pol c s).getD s) s

/-- Initial state of `or`: the mailbox is created empty with one sender
(the original, which `or` itself keeps alive until it returns). -/
def orInit {α ε : Type} (works : List (Work α)) : OrState α ε :=
  { pending := works
    tasks := []
    slot := none
    senders := 1
    deposits := 0
    recvCount := 0
    received := none
    phase := .spawning
    err := none
    calls := 0 }

/-- Lookup unchanged at positions other than the set one. -/
theorem get?_set_ne {β : Type} (l : List β) (i j : Nat) (a : β)
    (h : ¬ j = i) : (l.set i a).get? j = l.get? j := by
  induction l generalizing i j with
  | nil => rfl
  | cons b l ih =>
    cases i with
    | zero =>
      cases j with
      | zero => exact absurd rfl h
      | succ j => rfl
    | succ i =>
      cases j with
      | zero => rfl
      | succ j => exact ih i j (fun hc => h (by rw [hc]))

/-- Every member sits at some index. -/
theorem exists_get?_of_mem {β : Type} {l : List β} {x : β} (h : x ∈ l) :
    ∃ i, l.get? i = some x := by
  induction l with
  | nil => cases h
  | cons a l ih =>
    rcases List.mem_cons.1 h with rfl | hmem
    · exact ⟨0, rfl⟩
    · obtain ⟨i, hi⟩ := ih hmem
      exact ⟨i + 1, hi⟩

/-- Cancelling every racer leaves no live wrapper. -/
theorem countP_map_cancelled {α : Type} (l : List (OTask α)) :
    (l.map (fun t => { t with cancelled := true })).countP isLive = 0 := by
  induction l with
  | nil => rfl
  | cons a l ih => simp [List.countP_cons, isLive, ih]

/-- One when the mailbox slot is occupied. -/
def slotNat {α : Type} : Option α → Nat
  | some _ => 1
  | none => 0

/-! ### Master invariant of the `or` machine -/

/-- Master invariant of the `or` machine, for every spawn-error policy
and every scheduler interleaving:
the live mailbox senders are exactly the original one `or` holds plus
one per live wrapper (so the channel is never closed before `or`
returns); the successful deposits are exactly one per currently
occupied slot plus one per completed receive, and at most one receive
ever happens; before the receive nothing has been received; while
cancelling handle `k` every handle before `k` has been cancelled; on
return every spawned handle has been cancelled and a value was
received; and the `expect` panic is unreachable. -/
def OrInv {α ε : Type} (s : OrState α ε) : Prop :=
  s.senders = 1 + s.tasks.countP isLive ∧
  s.deposits = slotNat s.slot + s.recvCount ∧
  s.recvCount ≤ 1 ∧
  ((s.phase = OPhase.spawning ∨ s.phase = OPhase.receiving ∨
      s.phase = OPhase.failed) →
    s.recvCount = 0 ∧ s.received = none) ∧
  (∀ k, s.phase = OPhase.cancelling k →
    s.received.isSome = true ∧ s.recvCount = 1 ∧
    ∀ i t, i < k → s.tasks.get? i = some t → t.cancelled = true) ∧
  (s.phase = OPhase.finished →
    s.received.isSome = true ∧ ∀ t ∈ s.tasks, t.cancelled = true) ∧
  s.phase ≠ OPhase.panicMain

/-- The master invariant holds initially. -/
theorem orInv_init {α ε : Type} (works : List (Work α)) :
    OrInv (orInit (ε := ε) works) := by
  refine ⟨rfl, rfl, Nat.zero_le 1, ?_, ?_, ?_, ?_⟩
  · intro _; exact ⟨rfl, rfl⟩
  · intro k hk; cases hk
  · intro hk; cases hk
  · intro hk; cases hk

/-- A cancelled racer is never live. -/
theorem isLive_cancelled {α : Type} (t : OTask α) :
    isLive { t with cancelled := true } = false := by
  obtain ⟨core, c⟩ := t
  cases core <;> rfl

/-- Auxiliary preservation step for the racer polls: a poll of a live
wrapper changes only that task, the mailbox slot, the deposit count and
the sender count, and cannot touch a handle the cancel loop has already
visited. -/
theorem orInv_work_aux {α ε : Type} {s : OrState α ε} (h : OrInv s)
    (i : Nat) (w : Work α) (hg : s.tasks.get? i = some ⟨.running w, false⟩)
    (t2 : OTask α) (slot2 : Option α) (dep2 snd2 : Nat)
    (hA : snd2 = 1 + (s.tasks.set i t2).countP isLive)
    (hB : dep2 = slotNat slot2 + s.recvCount) :
    OrInv { s with tasks := s.tasks.set i t2
                   slot := slot2
                   deposits := dep2
                   senders := snd2 } := by
  obtain ⟨hA0, hB0, hC, hD, hE, hF, hG⟩ := h
  refine ⟨hA, hB, hC, hD, ?_, ?_, hG⟩
  · intro k hk
    obtain ⟨er, ec, eall⟩ := hE k hk
    refine ⟨er, ec, ?_⟩
    intro i2 t3 hi2 hg2
    by_cases hne : i2 = i
    · subst hne
      have hcontra := eall i2 ⟨.running w, false⟩ hi2 hg
      simp at hcontra
    · rw [get?_set_ne _ _ _ _ hne] at hg2
      exact eall i2 t3 hi2 hg2
  · intro hf
    obtain ⟨fr, fall⟩ := hF hf
    have hcontra := fall _ (mem_of_get?_eq _ _ _ hg)
    simp at hcontra

/-- The master invariant is preserved by every scheduler step. -/
theorem orInv_step {α ε : Type} {pol : Nat → Option ε}
    {s : OrState α ε} (h : OrInv s) (c : AChoice) :
    OrInv ((orStep pol c s).getD s) := by
  have h0 := h
  obtain ⟨hA, hB, hC, hD, hE, hF, hG⟩ := h
  cases c with
  | work i =>
    cases hg : s.tasks.get? i with
    | none =>
      simp only [orStep, orWork, hg, Option.getD_none]
      exact h0
    | some t =>
      obtain ⟨core, cflag⟩ := t
      cases core with
      | sent ok =>
        cases cflag <;>
          (simp only [orStep, orWork, hg, Option.getD_none]; exact h0)
      | panicked =>
        cases cflag <;>
          (simp only [orStep, orWork, hg, Option.getD_none]; exact h0)
      | running w =>
        cases cflag with
        | true =>
          cases w with
          | ready f v =>
            cases f <;>
              (simp only [orStep, orWork, hg, Option.getD_none]; exact h0)
          | stuck =>
            simp only [orStep, orWork, hg, Option.getD_none]; exact h0
          | panics f =>
            cases f <;>
              (simp only [orStep, orWork, hg, Option.getD_none]; exact h0)
        | false =>
          cases w with
          | stuck =>
            simp only [orStep, orWork, hg, Option.getD_none]; exact h0
          | ready f v =>
            cases f with
            | zero =>
              cases hslot : s.slot with
              | none =>
                have hstep : orStep pol (.work i) s = some
                    { s with tasks := s.tasks.set i ⟨.sent true, false⟩
                             slot := some v
                             deposits := s.deposits + 1
                             senders := s.senders - 1 } := by
                  simp only [orStep, orWork, hg, hslot]
                rw [hstep, Option.getD_some]
                have hdec := countP_set_dec isLive s.tasks i _
                  (⟨.sent true, false⟩ : OTask α) hg rfl rfl
                refine orInv_work_aux h0 i _ hg ⟨.sent true, false⟩ (some v)
                  (s.deposits + 1) (s.senders - 1) (by omega) ?_
                rw [hslot] at hB
                simp only [slotNat] at hB ⊢
                omega
              | some u =>
                have hstep : orStep pol (.work i) s = some
                    { s with tasks := s.tasks.set i ⟨.sent false, false⟩
                             senders := s.senders - 1 } := by
                  simp only [orStep, orWork, hg, hslot]
                rw [hstep, Option.getD_some]
                have hdec := countP_set_dec isLive s.tasks i _
                  (⟨.sent false, false⟩ : OTask α) hg rfl rfl
                exact orInv_work_aux h0 i _ hg ⟨.sent false, false⟩ s.slot
                  s.deposits (s.senders - 1) (by omega) hB
            | succ f =>
              have hstep : orStep pol (.work i) s = some
                  { s with tasks := s.tasks.set i ⟨.running (.ready f v), false⟩ } := by
                simp only [orStep, orWork, hg]
              rw [hstep, Option.getD_some]
              have heq := countP_set_eq isLive s.tasks i _
                (⟨.running (.ready f v), false⟩ : OTask α) hg rfl
              exact orInv_work_aux h0 i _ hg ⟨.running (.ready f v), false⟩
                s.slot s.deposits s.senders (by omega) hB
          | panics f =>
            cases f with
            | zero =>
              have hstep : orStep pol (.work i) s = some
                  { s with tasks := s.tasks.set i ⟨.panicked, false⟩
                           senders := s.senders - 1 } := by
                simp only [orStep, orWork, hg]
              rw [hstep, Option.getD_some]
              have hdec := countP_set_dec isLive s.tasks i _
                (⟨.panicked, false⟩ : OTask α) hg rfl rfl
              exact orInv_work_aux h0 i _ hg ⟨.panicked, false⟩ s.slot
                s.deposits (s.senders - 1) (by omega) hB
            | succ f =>
              have hstep : orStep pol (.work i) s = some
                  { s with tasks := s.tasks.set i ⟨.running (.panics f), false⟩ } := by
                simp only [orStep, orWork, hg]
              rw [hstep, Option.getD_some]
              have heq := countP_set_eq isLive s.tasks i _
                (⟨.running (.panics f), false⟩ : OTask α) hg rfl
              exact orInv_work_aux h0 i _ hg ⟨.running (.panics f), false⟩
                s.slot s.deposits s.senders (by omega) hB
  | main =>
    cases hp : s.phase with
    | finished =>
      simp only [orStep, orMain, hp, Option.getD_none]
      exact h0
    | failed =>
      simp only [orStep, orMain, hp, Option.getD_none]
      exact h0
    | panicMain => exact absurd hp hG
    | spawning =>
      cases hpd : s.pending with
      | nil =>
        simp only [orStep, orMain, hp, hpd, Option.getD_some]
        refine ⟨hA, hB, hC, ?_, ?_, ?_, ?_⟩
        · intro _; exact hD (Or.inl hp)
        · intro k hk; cases hk
        · intro hk; cases hk
        · intro hk; cases hk
      | cons w rest =>
        cases hpol2 : pol s.calls with
        | some e =>
          simp only [orStep, orMain, hp, hpd, hpol2, Option.getD_some]
          refine ⟨?_, hB, hC, ?_, ?_, ?_, ?_⟩
          · show s.senders - s.tasks.countP isLive
              = 1 + (s.tasks.map (fun t => { t with cancelled := true })).countP isLive
            rw [countP_map_cancelled]
            omega
          · intro _; exact hD (Or.inl hp)
          · intro k hk; cases hk
          · intro hk; cases hk
          · intro hk; cases hk
        | none =>
          simp only [orStep, orMain, hp, hpd, hpol2, Option.getD_some]
          refine ⟨?_, hB, hC, ?_, ?_, ?_, ?_⟩
          · show s.senders + 1
              = 1 + (s.tasks ++ [(⟨.running w, false⟩ : OTask α)]).countP isLive
            have hc : (s.tasks ++ [(⟨.running w, false⟩ : OTask α)]).countP isLive
                = s.tasks.countP isLive + 1 := by
              simp [List.countP_append, List.countP_cons, isLive]
            rw [hc]
            omega
          · intro _; exact hD (Or.inl hp)
          · intro k hk; cases hk
          · intro hk; cases hk
          · intro hk; cases hk
    | receiving =>
      cases hslot : s.slot with
      | some v =>
        obtain ⟨hrc, hrecv⟩ := hD (Or.inr (Or.inl hp))
        simp only [orStep, orMain, hp, hslot, Option.getD_some]
        refine ⟨hA, ?_, ?_, ?_, ?_, ?_, ?_⟩
        · show s.deposits = slotNat none + (s.recvCount + 1)
          rw [hslot] at hB
          simp only [slotNat] at hB ⊢
          omega
        · show s.recvCount + 1 ≤ 1
          omega
        · intro hor
          rcases hor with h1 | h1 | h1 <;> cases h1
        · intro k hk
          cases hk
          refine ⟨rfl, ?_, ?_⟩
          · show s.recvCount + 1 = 1
            omega
          · intro i t hi _
            exact absurd hi (Nat.not_lt_zero i)
        · intro hk; cases hk
        · intro hk; cases hk
      | none =>
        have hnz : ¬ s.senders = 0 := by rw [hA]; omega
        have hstep : orStep pol .main s = none := by
          simp only [orStep, orMain, hp, hslot]
          rw [if_neg hnz]
        rw [hstep, Option.getD_none]
        exact h0
    | cancelling k =>
      obtain ⟨er, ec, eall⟩ := hE k hp
      cases hg : s.tasks.get? k with
      | none =>
        simp only [orStep, orMain, hp, hg, Option.getD_some]
        refine ⟨hA, hB, hC, ?_, ?_, ?_, ?_⟩
        · intro hor
          rcases hor with h1 | h1 | h1 <;> cases h1
        · intro k2 hk; cases hk
        · intro _
          refine ⟨er, ?_⟩
          intro t ht
          obtain ⟨i, hi⟩ := exists_get?_of_mem ht
          have hilt : i < s.tasks.length := lt_of_get?_some _ _ _ hi
          have hlek : s.tasks.length ≤ k := le_of_get?_none _ _ hg
          exact eall i t (Nat.lt_of_lt_of_le hilt hlek) hi
        · intro hk; cases hk
      | some t =>
        have hklt : k < s.tasks.length := lt_of_get?_some _ _ _ hg
        simp only [orStep, orMain, hp, hg, Option.getD_some]
        refine ⟨?_, hB, hC, ?_, ?_, ?_, ?_⟩
        · show (if isLive t then s.senders - 1 else s.senders)
            = 1 + (s.tasks.set k { t with cancelled := true }).countP isLive
          have hdec := fun (hl : isLive t = true) =>
            countP_set_dec isLive s.tasks k t
              { t with cancelled := true } hg hl (isLive_cancelled t)
          have heq := fun (hl : isLive t = false) =>
            countP_set_eq isLive s.tasks k t
              { t with cancelled := true } hg ((isLive_cancelled t).trans hl.symm)
          cases hl : isLive t with
          | true =>
            have hdec2 := hdec hl
            rw [if_pos rfl]
            omega
          | false =>
            have heq2 := heq hl
            rw [if_neg (by simp)]
            omega
        · intro hor
          rcases hor with h1 | h1 | h1 <;> cases h1
        · intro k2 hk
          cases hk
          refine ⟨er, ec, ?_⟩
          intro i t2 hi hg2
          by_cases hik : i = k
          · subst hik
            rw [get?_set_self _ _ _ hklt] at hg2
            cases hg2
            rfl
          · have hik2 : i < k := by omega
            rw [get?_set_ne _ _ _ _ hik] at hg2
            exact eall i t2 hik2 hg2
        · intro hk; cases hk
        · intro hk; cases hk

/-- The master invariant is preserved by whole schedules. -/
theorem orInv_run {α ε : Type} (pol : Nat → Option ε)
    (cs : List AChoice) {s : OrState α ε} (h : OrInv s) :
    OrInv (orRun pol cs s) := by
  induction cs generalizing s with
  | nil => exact h
  | cons c cs ih => exact ih (orInv_step h c)

/-- The mailbox slot holds at most one value. -/
theorem slotNat_le_one {α : Type} (o : Option α) : slotNat o ≤ 1 := by
  cases o <;> simp [slotNat]

/-! ### Claim C3: `or` cancels every handle before returning -/

/-- C3: `or` never returns without having issued a cancellation to
every handle it spawned.  On every spawn-error policy and every
scheduler interleaving: while the cancel loop is at handle `k`, a value
has been received and every handle before `k` has already had `cancel`
called and awaited on it; and whenever `or` has returned its value,
a value was received and every spawned handle — including the winner's
already-completed one — was cancelled before the return. -/
theorem or_cancels_every_handle {α ε : Type} (works : List (Work α))
    (pol : Nat → Option ε) (cs : List AChoice) :
    (∀ k, (orRun pol cs (orInit works)).phase = OPhase.cancelling k →
      (orRun pol cs (orInit works)).received.isSome = true ∧
      ∀ i t, i < k → (orRun pol cs (orInit works)).tasks.get? i = some t →
        t.cancelled = true) ∧
    ((orRun pol cs (orInit works)).phase = OPhase.finished →
      (orRun pol cs (orInit works)).received.isSome = true ∧
      ∀ t ∈ (orRun pol cs (orInit works)).tasks, t.cancelled = true) := by
  obtain ⟨_, _, _, _, hE, hF, _⟩ := orInv_run pol cs (orInv_init (ε := ε) works)
  refine ⟨?_, hF⟩
  intro k hk
  obtain ⟨er, _, eall⟩ := hE k hk
  exact ⟨er, eall⟩

/-- Witness for C3 at a concrete input: one immediately-ready racer;
the run returns and its (already completed) handle was cancelled. -/
theorem or_cancels_every_handle_witness :
    (orRun (ε := Unit) (fun _ => none)
      [AChoice.main, AChoice.main, AChoice.work 0, AChoice.main,
       AChoice.main, AChoice.main]
      (orInit [Work.ready 0 42])).received.isSome = true ∧
    ∀ t ∈ (orRun (ε := Unit) (fun _ => none)
      [AChoice.main, AChoice.main, AChoice.work 0, AChoice.main,
       AChoice.main, AChoice.main]
      (orInit [Work.ready 0 42])).tasks, t.cancelled = true :=
  (or_cancels_every_handle [Work.ready 0 42] (fun _ => none)
    [AChoice.main, AChoice.main, AChoice.work 0, AChoice.main,
     AChoice.main, AChoice.main]).2 (by decide)

/-! ### Claim C5: the Completion Mailbox -/

/-- C5 counterexample: with two immediately-ready racers, a scheduler
can deliver the first racer's deposit, let `or` receive it (emptying the
single slot), and then let the second racer's deposit attempt succeed —
two deposits succeed over the whole run, refuting the claim that every
deposit attempt after the first fails without effect. -/
theorem mailbox_second_deposit_succeeds :
    (orRun (ε := Unit) (fun _ => none)
      [AChoice.main, AChoice.main, AChoice.main, AChoice.work 0,
       AChoice.main, AChoice.work 1]
      (orInit [Work.ready 0 1, Work.ready 0 2])).deposits = 2 ∧
    ¬ (orRun (ε := Unit) (fun _ => none)
      [AChoice.main, AChoice.main, AChoice.main, AChoice.work 0,
       AChoice.main, AChoice.work 1]
      (orInit [Work.ready 0 1, Work.ready 0 2])).deposits ≤ 1 := by
  decide

/-- C5 (amended): in the Completion Mailbox used by `or`, at most one
value is held at a time and the successful deposits are exactly one per
currently occupied slot plus one per completed receive.  Since `or`
receives at most once, at most one deposit succeeds before the receive
(in particular the first deposit attempt, made with the slot empty,
succeeds, and every subsequent attempt while the slot is full fails
without effect) and at most two succeed over the whole run — the
possible second success happens only after the receive has emptied the
slot, and its value is never observed by `or`. -/
theorem mailbox_deposit_accounting {α ε : Type} (works : List (Work α))
    (pol : Nat → Option ε) (cs : List AChoice) :
    (orRun pol cs (orInit works)).deposits
      = slotNat (orRun pol cs (orInit works)).slot
        + (orRun pol cs (orInit works)).recvCount ∧
    (orRun pol cs (orInit works)).recvCount ≤ 1 ∧
    ((orRun pol cs (orInit works)).recvCount = 0 →
      (orRun pol cs (orInit works)).deposits ≤ 1) ∧
    (orRun pol cs (orInit works)).deposits ≤ 2 := by
  obtain ⟨_, hB, hC, _, _, _, _⟩ := orInv_run pol cs (orInv_init (ε := ε) works)
  refine ⟨hB, hC, ?_, ?_⟩
  · intro h0
    rw [hB, h0]
    have := slotNat_le_one (orRun pol cs (orInit (ε := ε) works)).slot
    omega
  · rw [hB]
    have := slotNat_le_one (orRun pol cs (orInit (ε := ε) works)).slot
    omega

/-- Witness for the amended C5 at a concrete input: before any receive,
at most one deposit has succeeded. -/
theorem mailbox_deposit_accounting_witness :
    (orRun (ε := Unit) (fun _ => none)
      [AChoice.main, AChoice.main, AChoice.work 0]
      (orInit [Work.ready 0 7])).deposits ≤ 1 :=
  (mailbox_deposit_accounting [Work.ready 0 7] (fun _ => none)
    [AChoice.main, AChoice.main, AChoice.work 0]).2.2.1 (by decide)

/-! ### Claim C6: race exhaustion -/

/-- A work that can never deposit a value: it either never completes or
terminates abnormally. -/
def neverSends {α : Type} : Work α → Bool
  | .ready _ _ => false
  | _ => true

/-- A racer that has not deposited and never will. -/
def taskNeverSent {α : Type} (t : OTask α) : Bool :=
  match t.core with
  | .running w => neverSends w
  | .sent _ => false
  | .panicked => true

/-- Invariant of `or` when every unit of work can never deposit and all
spawns succeed: the mailbox stays empty, nothing is ever received, and
the coroutine remains stuck in its spawn loop or blocked on the mailbox
receive — it neither returns nor panics. -/
def NoDepositInv {α ε : Type} (s : OrState α ε) : Prop :=
  (∀ w ∈ s.pending, neverSends w = true) ∧
  (∀ t ∈ s.tasks, taskNeverSent t = true) ∧
  s.slot = none ∧
  s.deposits = 0 ∧
  (s.phase = OPhase.spawning ∨ s.phase = OPhase.receiving)

/-- The no-deposit invariant is preserved by every scheduler step
(using the master invariant to rule out the mailbox ever closing). -/
theorem orNoDeposit_step {α ε : Type} {pol : Nat → Option ε}
    (hpol : ∀ i, pol i = none) {s : OrState α ε}
    (hinv : OrInv s) (h : NoDepositInv s) (c : AChoice) :
    NoDepositInv ((orStep pol c s).getD s) := by
  have h0 := h
  obtain ⟨hpend, htasks, hslot, hdep, hphase⟩ := h
  obtain ⟨hA, _, _, _, _, _, _⟩ := hinv
  cases c with
  | main =>
    rcases hphase with hp | hp
    · cases hpd : s.pending with
      | nil =>
        simp only [orStep, orMain, hp, hpd, Option.getD_some]
        refine ⟨by intro w hw; simp at hw, htasks, hslot, hdep, Or.inr rfl⟩
      | cons w rest =>
        have hpol0 := hpol s.calls
        simp only [orStep, orMain, hp, hpd, hpol0, Option.getD_some]
        refine ⟨?_, ?_, hslot, hdep, Or.inl rfl⟩
        · intro w2 hw2
          exact hpend w2 (by rw [hpd]; exact List.mem_cons_of_mem w hw2)
        · intro t ht
          rcases List.mem_append.1 ht with hmem | hmem
          · exact htasks t hmem
          · rcases List.mem_singleton.1 hmem with rfl
            show neverSends w = true
            exact hpend w (by rw [hpd]; exact List.mem_cons_self _ _)
    · have hnz : ¬ s.senders = 0 := by rw [hA]; omega
      have hstep : orStep pol .main s = none := by
        simp only [orStep, orMain, hp, hslot]
        rw [if_neg hnz]
      rw [hstep, Option.getD_none]
      exact h0
  | work i =>
    cases hg : s.tasks.get? i with
    | none =>
      simp only [orStep, orWork, hg, Option.getD_none]
      exact h0
    | some t =>
      obtain ⟨core, cflag⟩ := t
      cases core with
      | sent ok =>
        have := htasks _ (mem_of_get?_eq _ _ _ hg)
        simp [taskNeverSent] at this
      | panicked =>
        cases cflag <;>
          (simp only [orStep, orWork, hg, Option.getD_none]; exact h0)
      | running w =>
        have hns : neverSends w = true := htasks _ (mem_of_get?_eq _ _ _ hg)
        cases cflag with
        | true =>
          cases w with
          | ready f v => simp [neverSends] at hns
          | stuck =>
            simp only [orStep, orWork, hg, Option.getD_none]; exact h0
          | panics f =>
            cases f <;>
              (simp only [orStep, orWork, hg, Option.getD_none]; exact h0)
        | false =>
          cases w with
          | ready f v => simp [neverSends] at hns
          | stuck =>
            simp only [orStep, orWork, hg, Option.getD_none]; exact h0
          | panics f =>
            cases f with
            | zero =>
              have hstep : orStep pol (.work i) s = some
                  { s with tasks := s.tasks.set i ⟨.panicked, false⟩
                           senders := s.senders - 1 } := by
                simp only [orStep, orWork, hg]
              rw [hstep, Option.getD_some]
              refine ⟨hpend, ?_, hslot, hdep, hphase⟩
              intro t2 ht2
              rcases mem_set_cases _ _ _ _ ht2 with hmem | rfl
              · exact htasks t2 hmem
              · rfl
            | succ f =>
              have hstep : orStep pol (.work i) s = some
                  { s with tasks := s.tasks.set i ⟨.running (.panics f), false⟩ } := by
                simp only [orStep, orWork, hg]
              rw [hstep, Option.getD_some]
              refine ⟨hpend, ?_, hslot, hdep, hphase⟩
              intro t2 ht2
              rcases mem_set_cases _ _ _ _ ht2 with hmem | rfl
              · exact htasks t2 hmem
              · rfl

/-- Both invariants together are preserved by whole schedules. -/
theorem orNoDeposit_run {α ε : Type} {pol : Nat → Option ε}
    (hpol : ∀ i, pol i = none) (cs : List AChoice) {s : OrState α ε}
    (hinv : OrInv s) (h : NoDepositInv s) :
    NoDepositInv (orRun pol cs s) := by
  induction cs generalizing s with
  | nil => exact h
  | cons c cs ih =>
    exact ih (orInv_step hinv c) (orNoDeposit_step hpol hinv h c)

/-- C6 (the code, at the claim's failing scenario): first, on every
input, every policy and every scheduler interleaving, `or` never reaches
the `expect` panic — `or` itself keeps the original mailbox sender alive
across the receive, so the channel is never closed while receiving and
the fatal-assertion branch is unreachable.  Second, when every race
participant can never deposit (all spawns succeeding), nothing is ever
deposited or received and the coroutine stays in its spawn loop or
suspended on the mailbox receive forever: `or` neither panics nor
returns. -/
theorem or_no_deposit_never_panics {α ε : Type} (works : List (Work α))
    (pol : Nat → Option ε) (cs : List AChoice) :
    (orRun pol cs (orInit works)).phase ≠ OPhase.panicMain ∧
    ((∀ i, pol i = none) → (∀ w ∈ works, neverSends w = true) →
      (orRun pol cs (orInit works)).received = none ∧
      (orRun pol cs (orInit works)).deposits = 0 ∧
      ((orRun pol cs (orInit works)).phase = OPhase.spawning ∨
        (orRun pol cs (orInit works)).phase = OPhase.receiving)) := by
  have hinv := orInv_run pol cs (orInv_init (ε := ε) works)
  refine ⟨hinv.2.2.2.2.2.2, ?_⟩
  intro hpol hworks
  have hnd := orNoDeposit_run hpol cs (orInv_init (ε := ε) works)
    ⟨hworks, by intro t ht; simp [orInit] at ht, rfl, rfl, Or.inl rfl⟩
  obtain ⟨_, _, _, hdep, hphase⟩ := hnd
  obtain ⟨_, _, _, hD, _, _, _⟩ := hinv
  refine ⟨?_, hdep, hphase⟩
  rcases hphase with hp | hp
  · exact (hD (Or.inl hp)).2
  · exact (hD (Or.inr (Or.inl hp))).2

/-- Witness for C6 at a concrete input: a single racer that terminates
abnormally; `or` never panics, never receives, and stays suspended on
the mailbox receive. -/
theorem or_no_deposit_never_panics_witness :
    (orRun (ε := Unit) (fun _ => none)
      [AChoice.main, AChoice.main, AChoice.work 0, AChoice.main]
      (orInit [(Work.panics 0 : Work Nat)])).phase ≠ OPhase.panicMain ∧
    (orRun (ε := Unit) (fun _ => none)
      [AChoice.main, AChoice.main, AChoice.work 0, AChoice.main]
      (orInit [(Work.panics 0 : Work Nat)])).received = none :=
  have h := or_no_deposit_never_panics [(Work.panics 0 : Work Nat)]
    (fun _ => (none : Option Unit))
    [AChoice.main, AChoice.main, AChoice.work 0, AChoice.main]
  ⟨h.1, (h.2 (fun _ => rfl) (by decide)).1⟩

/-! ### The tokio adapter's `TokioTask` (claim C7) -/

/-- Status of the spawned work behind a tokio `JoinHandle` at the moment
the handle is used: already completed with its output, still executing,
or aborted. -/
inductive TokioStatus (α : Type) where
  | completed (v : α)
  | stillRunning
  | aborted
  deriving DecidableEq, Repr

/-- A tokio `JoinHandle`. -/
structure JoinHandle (α : Type) where
  status : TokioStatus α
  deriving DecidableEq, Repr

/-- `JoinHandle::abort`: requests cancellation of the task; aborting a
task that already ran to completion has no effect on its outcome, while
a still-running task becomes aborted. -/
def JoinHandle.abort {α : Type} (h : JoinHandle α) : JoinHandle α :=
  match h.status with
  | .completed v => ⟨.completed v⟩
  | _ => ⟨.aborted⟩

/-- `TokioTask<T>` from `impls.rs`: a wrapper around
`Option<JoinHandle<T>>`. -/
structure TokioTask (α : Type) where
  inner : Option (JoinHandle α)
  deriving DecidableEq, Repr

/-- `CancellableTask::cancel` for `TokioTask` from `impls.rs`:
`self.get_mut().abort()` — where `get_mut` unwraps the inner handle
(panicking when it was already taken, modelled as `none`) — and the
returned cancel future is `ready(None)`: it always resolves to `None`
and never reports the output.  The result pairs the post-abort handle
state with the Cancel Outcome the caller observes. -/
def TokioTask.cancel {α : Type} (t : TokioTask α) :
    Option (JoinHandle α × Option α) :=
  t.inner.map (fun h => (h.abort, none))

/-- C7 counterexample: cancelling a `TokioTask` whose work has already
completed with output `42` yields the Cancel Outcome `None`, not
`Some 42` as the claim states. -/
theorem tokio_cancel_completed_yields_none :
    (TokioTask.cancel (⟨some ⟨.completed 42⟩⟩ : TokioTask Nat)).map Prod.snd
      = some none ∧
    ¬ (TokioTask.cancel (⟨some ⟨.completed 42⟩⟩ : TokioTask Nat)).map Prod.snd
      = some (some 42) := by
  decide

/-- C7 (amended): for the tokio-based Task Handle, cancelling a handle
whose work has already completed with output `v` deterministically
yields `None` as the Cancel Outcome — the abort-based cancel is
best-effort and never reports the output — and it does not alter the
already-produced result: the abort is a no-op on the completed task,
whose outcome remains `completed v`. -/
theorem tokio_cancel_completed {α : Type} (v : α) (h : JoinHandle α)
    (hs : h.status = .completed v) :
    TokioTask.cancel ⟨some h⟩ = some (⟨.completed v⟩, none) := by
  obtain ⟨st⟩ := h
  cases hs
  rfl

/-- Witness for the amended C7 at a concrete completed handle. -/
theorem tokio_cancel_completed_witness :
    TokioTask.cancel ⟨some ⟨.completed (42 : Nat)⟩⟩
      = some (⟨.completed 42⟩, none) :=
  tokio_cancel_completed 42 ⟨.completed 42⟩ rfl

/-! ### The Type-Erasing Wrapper (claim C8) -/

/-- A heap-erased future `Pin<Box<dyn Future<Output = τ>>>`: boxing a
future only adds indirection, so the box is its boxed future (awaiting
the box awaits it). -/
structure DynFuture (τ : Type) where
  unbox : RWork τ
  deriving DecidableEq, Repr

/-- The concrete executor wrapped by `BoxedExecutor::new`
(respectively `LocalBoxedExecutor::new`): an `Executor` over boxed
futures with output `τ`, with task type `tsk` and error type `εE`.
`awaitTask` is the task's own await semantics, which the `Executor`
trait requires to be a future with `Output = τ`. -/
structure RawExecutor (τ tsk εE : Type) where
  trySpawn : DynFuture τ → Except εE tsk
  awaitTask : tsk → τ

/-- A boxed task `Pin<Box<dyn Future<Output = τ>>>` produced by
`Box::pin(task)`: awaiting it awaits the underlying task, so it is
captured by that await result. -/
structure DynTask (τ : Type) where
  awaitVal : τ
  deriving DecidableEq, Repr

/-- A boxed spawn error `Box<dyn Error>` produced by `Box::new(err)`. -/
structure DynError (εE : Type) where
  unboxErr : εE
  deriving DecidableEq, Repr

/-- The inner `BoxingExecutor` of `BoxedExecutor::new` /
`LocalBoxedExecutor::new`: `try_spawn` delegates to the wrapped
executor, boxing the resulting task on success (`Box::pin(task)`) and
boxing the error on failure (`Box::new(err)`). -/
def boxingTrySpawn {τ tsk εE : Type} (ex : RawExecutor τ tsk εE)
    (f : DynFuture τ) : Except (DynError εE) (DynTask τ) :=
  match ex.trySpawn f with
  | .ok task => .ok ⟨ex.awaitTask task⟩
  | .error err => .error ⟨err⟩

/-- `Executor for BoxedExecutor` (and `LocalBoxedExecutor`):
`try_spawn` boxes the caller's future (`Box::pin(future)`) and delegates
to the inner boxing executor. -/
def boxedTrySpawn {τ tsk εE : Type} (ex : RawExecutor τ tsk εE)
    (f : RWork τ) : Except (DynError εE) (DynTask τ) :=
  boxingTrySpawn ex ⟨f⟩

/-- C8: for every underlying executor and every unit of work, spawning
through the Type-Erasing Wrapper succeeds exactly when the underlying
`try_spawn` succeeds; on success, awaiting the wrapper's boxed handle
yields the identical output as awaiting the handle obtained by spawning
the (boxed) work directly on the underlying executor; and on failure the
wrapper's error is exactly the boxed form of the underlying error. -/
theorem boxed_executor_roundtrip {τ tsk εE : Type}
    (ex : RawExecutor τ tsk εE) (f : RWork τ) :
    ((boxedTrySpawn ex f).isOk = (ex.trySpawn ⟨f⟩).isOk) ∧
    (∀ task, ex.trySpawn ⟨f⟩ = .ok task →
      boxedTrySpawn ex f = .ok ⟨ex.awaitTask task⟩) ∧
    (∀ err, ex.trySpawn ⟨f⟩ = .error err →
      boxedTrySpawn ex f = .error ⟨err⟩) := by
  refine ⟨?_, ?_, ?_⟩
  · unfold boxedTrySpawn boxingTrySpawn
    cases hx : ex.trySpawn ⟨f⟩ <;> rfl
  · intro task hx
    unfold boxedTrySpawn boxingTrySpawn
    rw [hx]
  · intro err hx
    unfold boxedTrySpawn boxingTrySpawn
    rw [hx]

/-- Witness for C8 at a concrete executor (spawning succeeds and the
round trip yields the work's own output). -/
theorem boxed_executor_roundtrip_witness :
    boxedTrySpawn
      (⟨fun df => .ok df.unbox, RWork.val⟩ : RawExecutor Nat (RWork Nat) Unit)
      ⟨0, 7⟩ = .ok ⟨7⟩ :=
  (boxed_executor_roundtrip
    (⟨fun df => .ok df.unbox, RWork.val⟩ : RawExecutor Nat (RWork Nat) Unit)
    ⟨0, 7⟩).2.1 ⟨0, 7⟩ rfl

/-! ### The Infallible Capability Adapter (claim C10) -/

/-- The Spawn Capability contract of `lib.rs`: `try_spawn` over a work
type `φ`, task type `τ` and error type `ε`. -/
structure ExecutorCap (φ τ ε : Type) where
  trySpawn : φ → Except ε τ

/-- `InfallibleExecutor::spawn` from `lib.rs`, for executors whose spawn
error type is `Infallible` (uninhabited, modelled by `Empty`): call
`try_spawn`, return the task on `Ok`, and eliminate the impossible `Err`
variant (`match infl {}`). -/
def spawnInfallible {φ τ : Type} (ex : ExecutorCap φ τ Empty) (f : φ) : τ :=
  match ex.trySpawn f with
  | .ok task => task
  | .error e => e.elim

/-- C10: for every executor whose spawn error type is uninhabited and
every unit of work `f`, the infallible entry point returns exactly the
task that `try_spawn` returns — `try_spawn f` is `Ok (spawn f)`, so
`spawn` cannot fail and cannot mask a real error (no error value
exists to be masked, and the `Err` branch is the impossible-variant
eliminator, not a default). -/
theorem infallible_spawn_unwraps {φ τ : Type} (ex : ExecutorCap φ τ Empty)
    (f : φ) : ex.trySpawn f = .ok (spawnInfallible ex f) := by
  unfold spawnInfallible
  cases hx : ex.trySpawn f with
  | ok task => rfl
  | error e => exact e.elim
